import Mathlib

/-!
Verification of the document mutation engine of the dynamic-workflow-choices
action (src/src/workflow-updater.ts).

Modelling conventions:
* JavaScript strings are shallowly embedded as lists of characters
  (abbreviated Str below).  The JavaScript operations used by the source
  (split on a newline, trim, startsWith, indexOf, includes, splice, filter,
  regex replacements anchored at the ends of a string) are translated to
  executable functions on Str.
* The line-oriented fallback functions (extractOptionsWithRegex,
  replaceOptionsWithRegex, modifyWithFallback) and the two mutation-policy
  switch blocks are translated directly from the source.
* The yaml library (yaml.parseDocument, doc.toJS, doc.get/set, doc.toString)
  is an external dependency of the repository.  It is modelled on a canonical
  block-style subset of YAML: two-space indentation per level, plain or fully
  quoted scalars, the on.workflow_dispatch.inputs.* path parsed structurally
  and every other region kept as verbatim raw lines.  Documents outside the
  subset parse to none and the embedded structural editor then returns its
  input unchanged; no theorem relies on that branch.  The model of doc.errors
  is the tab-as-indentation check, the one document-level error the yaml
  library reports that is expressible line-locally; errors are attached at
  parse time and never change afterwards, as in the library.
-/

abbrev Str := List Char

/-- Whitespace as matched by the JavaScript regexes and trims used in the
source (the documents are ASCII; only spaces and tabs occur inside lines). -/
def isWsChar (c : Char) : Bool := c = ' ' || c = '\t' || c = '\r'

/-- Leading whitespace of a line: the JS idiom line.match of caret-backslash-s-star. -/
def leadWS (l : Str) : Str := l.takeWhile isWsChar

/-- JS String.prototype.trim restricted to line content. -/
def trimL (l : Str) : Str := ((l.dropWhile isWsChar).reverse.dropWhile isWsChar).reverse

/-- JS content.split on a newline character. -/
def splitNl : Str → List Str
  | [] => [[]]
  | c :: rest =>
    if c = '\n' then [] :: splitNl rest
    else
      match splitNl rest with
      | [] => [[c]]
      | h :: t => (c :: h) :: t

/-- JS lines.join on a newline character. -/
def joinNl : List Str → Str
  | [] => []
  | [l] => l
  | l :: ls => l ++ '\n' :: joinNl ls

/-- The action input of the GitHub action: add, update or delete. -/
inductive JsAction
  | add
  | delete
  | update
deriving DecidableEq, Repr

/-- The request fields consumed by modifyWorkflowContent and
modifyWithFallback (action, inputName, choiceValue, newChoiceValue). -/
structure Req where
  action : JsAction
  inputName : Str
  choiceValue : Str
  newChoiceValue : Option Str
deriving DecidableEq, Repr

/-- JS truthiness of the optional newChoiceValue string: an absent value and
the empty string are falsy. -/
def truthy : Option Str → Bool
  | none => false
  | some s => !s.isEmpty

/-- The mutation-policy switch of the structural editor, lines 348-383 of the
current workflow-updater.ts: the in-place push, splice and index assignment on
the copied currentOptions array, together with the modified flag. -/
def applyActionStructural (action : JsAction) (currentOptions : List Str)
    (choiceValue : Str) (newChoiceValue : Option Str) : List Str × Bool :=
  match action with
  | .add =>
    if currentOptions.contains choiceValue then (currentOptions, false)
    else (currentOptions ++ [choiceValue], true)
  | .delete =>
    match currentOptions.findIdx? (· == choiceValue) with
    | some index => (currentOptions.eraseIdx index, true)
    | none => (currentOptions, false)
  | .update =>
    match currentOptions.findIdx? (· == choiceValue) with
    | some index =>
      if truthy newChoiceValue then
        (currentOptions.set index (newChoiceValue.getD []), true)
      else (currentOptions, false)
    | none => (currentOptions, false)

/-- The mutation-policy switch of the fallback path, lines 439-478 of the
current workflow-updater.ts: spread append, index filter and copy-then-set.
The default branch of the source switch is unreachable because the action
type has exactly the three constructors. -/
def applyActionFallback (action : JsAction) (currentOptions : List Str)
    (choiceValue : Str) (newChoiceValue : Option Str) : List Str × Bool :=
  match action with
  | .add =>
    if currentOptions.contains choiceValue then (currentOptions, false)
    else (currentOptions ++ [choiceValue], true)
  | .delete =>
    match currentOptions.findIdx? (· == choiceValue) with
    | some index =>
      ((currentOptions.enum.filter (fun p => p.1 ≠ index)).map (·.2), true)
    | none => (currentOptions, false)
  | .update =>
    match currentOptions.findIdx? (· == choiceValue) with
    | some index =>
      if truthy newChoiceValue then
        (currentOptions.set index (newChoiceValue.getD []), true)
      else (currentOptions, false)
    | none => (currentOptions, false)

/-! ### Helper lemmas about the list operations used by the policy -/

theorem enumFrom_filter_ne_of_lt {α : Type} (l : List α) (k : Nat) :
    ∀ n, k < n →
      (((l.enumFrom n).filter (fun p => p.1 ≠ k)).map Prod.snd) = l := by
  induction l with
  | nil => intro n _; rfl
  | cons x xs ih =>
    intro n hk
    have hne : (decide ((n, x).1 ≠ k)) = true := by
      simp only [decide_eq_true_eq]
      omega
    simp only [List.enumFrom_cons, List.filter_cons, hne, if_true, List.map_cons]
    rw [ih (n + 1) (Nat.lt_succ_of_lt hk)]

theorem enumFrom_filter_ne_eq_eraseIdx {α : Type} (l : List α) :
    ∀ (i n : Nat),
      (((l.enumFrom n).filter (fun p => p.1 ≠ n + i)).map Prod.snd) = l.eraseIdx i := by
  induction l with
  | nil => intro i n; rfl
  | cons x xs ih =>
    intro i n
    cases i with
    | zero =>
      have hx : (decide ((n, x).1 ≠ n + 0)) = false := by
        simp
      simp only [List.enumFrom_cons, List.filter_cons, hx, if_false,
        List.eraseIdx_cons_zero]
      exact enumFrom_filter_ne_of_lt xs n (n + 1) (Nat.lt_succ_self n)
    | succ j =>
      have harg : n + (j + 1) = (n + 1) + j := by omega
      have hx : (decide (n ≠ (n + 1) + j)) = true := by
        simp only [decide_eq_true_eq]
        omega
      simp only [harg, List.enumFrom_cons, List.filter_cons, hx, if_true, List.map_cons,
        List.eraseIdx_cons_succ]
      rw [ih j (n + 1)]

theorem findIdx?_aux_spec {α : Type} (p : α → Bool) :
    ∀ (l : List α) (n i : Nat), List.findIdx? p l n = some i →
      n ≤ i ∧ (∀ x ∈ l.take (i - n), p x = false) ∧
        ∃ a, l[i - n]? = some a ∧ p a = true := by
  intro l
  induction l with
  | nil => intro n i h; simp [List.findIdx?_nil] at h
  | cons x xs ih =>
    intro n i h
    rw [List.findIdx?_cons] at h
    by_cases hp : p x = true
    · rw [if_pos hp] at h
      have hni : n = i := by exact Option.some.inj h
      subst hni
      refine ⟨Nat.le_refl n, ?_, ⟨x, ?_, hp⟩⟩
      · intro y hy
        simp [Nat.sub_self] at hy
      · simp [Nat.sub_self]
    · rw [if_neg hp] at h
      obtain ⟨hle, htake, a, ha, hpa⟩ := ih (n + 1) i h
      have hin : i - n = (i - (n + 1)) + 1 := by omega
      refine ⟨by omega, ?_, ⟨a, ?_, hpa⟩⟩
      · intro y hy
        rw [hin, List.take_succ_cons] at hy
        rcases List.mem_cons.mp hy with h1 | h2
        · subst h1
          exact eq_false_of_ne_true hp
        · exact htake y h2
      · rw [hin]
        simpa using ha

theorem findIdx?_beq_none_iff (l : List Str) (v : Str) :
    l.findIdx? (· == v) = none ↔ v ∉ l := by
  rw [List.findIdx?_eq_none_iff]
  constructor
  · intro h hv
    have := h v hv
    simp at this
  · intro hv x hx
    by_cases hxv : x = v
    · subst hxv; exact absurd hx hv
    · simp [hxv]

theorem findIdx?_beq_some_spec (l : List Str) (v : Str) (i : Nat)
    (h : l.findIdx? (· == v) = some i) :
    l[i]? = some v ∧ ∀ x ∈ l.take i, x ≠ v := by
  obtain ⟨-, htake, a, ha, hpa⟩ := findIdx?_aux_spec (· == v) l 0 i h
  simp only [Nat.sub_zero] at htake ha
  have hav : a = v := by simpa using hpa
  subst hav
  refine ⟨ha, ?_⟩
  intro x hx hxv
  have := htake x hx
  subst hxv
  simp at this

/-- The two mutation-policy switch blocks compute the same result on every
input: the structural editor and the fallback scanner share one policy. -/
theorem policy_paths_agree (action : JsAction) (opts : List Str) (cv : Str)
    (ncv : Option Str) :
    applyActionFallback action opts cv ncv = applyActionStructural action opts cv ncv := by
  cases action with
  | add => rfl
  | update => rfl
  | delete =>
    unfold applyActionFallback applyActionStructural
    cases h : opts.findIdx? (· == cv) with
    | none => rfl
    | some i =>
      simp only
      have := enumFrom_filter_ne_eq_eraseIdx opts i 0
      simp only [Nat.zero_add] at this
      rw [show opts.enum = opts.enumFrom 0 from rfl, this]

/-! ### Claims C3, C4, C5: the mutation policy -/

/-- C3: for every current option list and value v, action add leaves the list
unchanged with changed=false when v already occurs (exact string match), and
otherwise appends v at the end with changed=true; identically on the
structural path and the fallback path. -/
theorem add_policy_spec (opts : List Str) (v : Str) (ncv : Option Str) :
    (v ∈ opts →
      applyActionStructural .add opts v ncv = (opts, false) ∧
      applyActionFallback .add opts v ncv = (opts, false)) ∧
    (v ∉ opts →
      applyActionStructural .add opts v ncv = (opts ++ [v], true) ∧
      applyActionFallback .add opts v ncv = (opts ++ [v], true)) := by
  constructor
  · intro hv
    constructor <;> simp [applyActionStructural, applyActionFallback, hv]
  · intro hv
    constructor <;> simp [applyActionStructural, applyActionFallback, hv]

theorem add_policy_spec_witness :
    ('s' :: "taging".data) ∈ ["staging".data, "production".data] ∧
    applyActionStructural .add ["staging".data, "production".data] "staging".data none
      = (["staging".data, "production".data], false) ∧
    ("testing".data) ∉ ["staging".data, "production".data] ∧
    applyActionFallback .add ["staging".data, "production".data] "testing".data none
      = (["staging".data, "production".data, "testing".data], true) := by
  refine ⟨by decide, ?_, by decide, ?_⟩
  · exact ((add_policy_spec ["staging".data, "production".data] "staging".data none).1
      (by decide)).1
  · exact ((add_policy_spec ["staging".data, "production".data] "testing".data none).2
      (by decide)).2

/-- C4: for every current option list and value v, action delete removes
exactly the first occurrence of v when present (the element at the first
matching index; all earlier elements differ from v, and the rest keep their
relative order because the result is the untouched prefix and suffix), with
changed=true; when v is absent the list is unchanged with changed=false;
identically on both paths. -/
theorem delete_policy_spec (opts : List Str) (v : Str) (ncv : Option Str) :
    (∀ i, opts.findIdx? (· == v) = some i →
      applyActionStructural .delete opts v ncv = (opts.take i ++ opts.drop (i + 1), true) ∧
      applyActionFallback .delete opts v ncv =
        applyActionStructural .delete opts v ncv ∧
      opts[i]? = some v ∧ ∀ x ∈ opts.take i, x ≠ v) ∧
    (v ∉ opts →
      applyActionStructural .delete opts v ncv = (opts, false) ∧
      applyActionFallback .delete opts v ncv = (opts, false)) := by
  constructor
  · intro i hi
    obtain ⟨hget, hpre⟩ := findIdx?_beq_some_spec opts v i hi
    refine ⟨?_, policy_paths_agree _ _ _ _, hget, hpre⟩
    simp [applyActionStructural, hi, List.eraseIdx_eq_take_drop_succ]
  · intro hv
    have hn : opts.findIdx? (· == v) = none := (findIdx?_beq_none_iff opts v).mpr hv
    constructor <;> simp [applyActionStructural, applyActionFallback, hn]

theorem delete_policy_spec_witness :
    ["development".data, "staging".data, "production".data].findIdx?
        (· == "staging".data) = some 1 ∧
    applyActionStructural .delete ["development".data, "staging".data, "production".data]
        "staging".data none = (["development".data, "production".data], true) ∧
    ("missing".data) ∉ ["development".data] ∧
    applyActionFallback .delete ["development".data] "missing".data none
      = (["development".data], false) := by
  refine ⟨by decide, ?_, by decide, ?_⟩
  · exact ((delete_policy_spec _ _ none).1 1 (by decide)).1
  · exact ((delete_policy_spec ["development".data] "missing".data none).2 (by decide)).2

/-- C5: for every current option list, old value and optional new value,
action update replaces the first occurrence of the old value in place with
the new value and reports changed=true exactly when the old value is present
and the new value is provided and non-empty; when the old value is absent or
the new value is missing or empty, the list is returned unchanged with
changed=false (a silent no-op, never an exception: the policy is a total
function); identically on both paths. -/
theorem update_policy_spec (opts : List Str) (v : Str) (ncv : Option Str) :
    (∀ i s, opts.findIdx? (· == v) = some i → ncv = some s → s ≠ [] →
      applyActionStructural .update opts v ncv = (opts.set i s, true) ∧
      applyActionFallback .update opts v ncv = (opts.set i s, true) ∧
      opts[i]? = some v ∧ ∀ x ∈ opts.take i, x ≠ v) ∧
    (v ∉ opts →
      applyActionStructural .update opts v ncv = (opts, false) ∧
      applyActionFallback .update opts v ncv = (opts, false)) ∧
    (truthy ncv = false →
      applyActionStructural .update opts v ncv = (opts, false) ∧
      applyActionFallback .update opts v ncv = (opts, false)) ∧
    ((applyActionStructural .update opts v ncv).2 = (opts.contains v && truthy ncv)) := by
  refine ⟨?_, ?_, ?_, ?_⟩
  · intro i s hi hs hne
    obtain ⟨hget, hpre⟩ := findIdx?_beq_some_spec opts v i hi
    have ht : truthy ncv = true := by
      subst hs
      simp [truthy, List.isEmpty_iff, hne]
    have hgd : ncv.getD [] = s := by subst hs; rfl
    refine ⟨?_, ?_, hget, hpre⟩ <;>
      simp [applyActionStructural, applyActionFallback, hi, ht, hgd]
  · intro hv
    have hn : opts.findIdx? (· == v) = none := (findIdx?_beq_none_iff opts v).mpr hv
    constructor <;> simp [applyActionStructural, applyActionFallback, hn]
  · intro ht
    cases h : opts.findIdx? (· == v) with
    | none => constructor <;> simp [applyActionStructural, applyActionFallback, h]
    | some i => constructor <;> simp [applyActionStructural, applyActionFallback, h, ht]
  · cases h : opts.findIdx? (· == v) with
    | none =>
      have hv : v ∉ opts := (findIdx?_beq_none_iff opts v).mp h
      simp [applyActionStructural, h, hv]
    | some i =>
      obtain ⟨hget, -⟩ := findIdx?_beq_some_spec opts v i h
      have hv : v ∈ opts := List.getElem?_mem hget
      cases ht : truthy ncv with
      | false => simp [applyActionStructural, h, ht, hv]
      | true => simp [applyActionStructural, h, ht, hv]

theorem update_policy_spec_witness :
    ["development".data, "staging".data].findIdx? (· == "staging".data) = some 1 ∧
    applyActionStructural .update ["development".data, "staging".data]
        "staging".data (some "stage".data)
      = (["development".data, "stage".data], true) ∧
    truthy (some ([] : Str)) = false ∧
    applyActionFallback .update ["development".data, "staging".data]
        "staging".data (some ([] : Str))
      = (["development".data, "staging".data], false) := by
  refine ⟨by decide, ?_, by decide, ?_⟩
  · exact (((update_policy_spec ["development".data, "staging".data] "staging".data
      (some "stage".data)).1) 1 "stage".data (by decide) rfl (by decide)).1
  · exact (((update_policy_spec ["development".data, "staging".data] "staging".data
      (some ([] : Str))).2.2.1) (by decide)).2

/-! ### The fallback scanner (lines 421-607 of workflow-updater.ts) -/

/-- The single-quote character, written by code point to keep the source
free of quote-escape literals. -/
def quoteCh : Char := Char.ofNat 39

/-- JS startsWith on strings-as-lists. -/
def startsL (s pre : Str) : Bool := pre.isPrefixOf s

/-- The JS replacement of a leading dash and following whitespace
(regex caret dash backslash-s star) used on a trimmed option line. -/
def stripDashWs : Str → Str
  | '-' :: rest => rest.dropWhile isWsChar
  | s => s

/-- The JS global replacement of one leading and one trailing quote
character, single or double (regex caret-quote-class or quote-class-dollar
with the g flag). -/
def stripEndQuotes (s : Str) : Str :=
  let s1 := match s with
    | [] => ([] : Str)
    | c :: rest => if c = quoteCh || c = '"' then rest else c :: rest
  match s1.getLast? with
  | none => s1
  | some c => if c = quoteCh || c = '"' then s1.dropLast else s1

/-- The line loop of extractOptionsWithRegex (lines 490-539): state variables
inTargetInput, inOptions, inputIndent, optionsIndent and the accumulated
options; a break returns the accumulator. -/
def extractLoop (inputName : Str) : List Str → Bool → Bool → Str → Str → List Str → List Str
  | [], _, _, _, _, acc => acc
  | line :: rest, inTargetInput, inOptions, inputIndent, optionsIndent, acc =>
    let trimmed := trimL line
    let currentIndent := leadWS line
    if startsL trimmed (inputName ++ [':']) then
      extractLoop inputName rest true inOptions currentIndent optionsIndent acc
    else if inTargetInput then
      if trimmed ≠ [] ∧ currentIndent.length ≤ inputIndent.length ∧
          ¬ startsL trimmed ['-'] then
        acc
      else if trimmed = "options:".data then
        extractLoop inputName rest inTargetInput true inputIndent currentIndent acc
      else if inOptions then
        if trimmed ≠ [] ∧ ¬ startsL trimmed ['-'] ∧
            currentIndent.length ≤ optionsIndent.length then
          acc
        else if startsL trimmed ['-'] then
          extractLoop inputName rest inTargetInput inOptions inputIndent optionsIndent
            (acc ++ [stripEndQuotes (stripDashWs trimmed)])
        else
          extractLoop inputName rest inTargetInput inOptions inputIndent optionsIndent acc
      else
        extractLoop inputName rest inTargetInput inOptions inputIndent optionsIndent acc
    else
      extractLoop inputName rest inTargetInput inOptions inputIndent optionsIndent acc

/-- extractOptionsWithRegex: extract the options of the named input by the
line scan. -/
def extractOptionsWithRegex (content inputName : Str) : List Str :=
  extractLoop inputName (splitNl content) false false [] [] []

/-- The line loop of replaceOptionsWithRegex (lines 545-607): on the options
line of the target input it emits the new option items at the options indent
plus two spaces and skips the directly following list-item lines; unlike the
extract loop it keeps scanning after leaving the input block.  The inner
while of the source, which advances the index past the contiguous list-item
lines, is realized by the skipping flag: while it is set, lines whose
trimmed text starts with a dash are dropped and the first other line is
processed by the ordinary loop body, exactly as the source resumes its outer
loop there. -/
def replaceLoop (inputName : Str) (newOptions : List Str) :
    List Str → Bool → Bool → Str → List Str
  | [], _, _, _ => []
  | line :: rest, skipping, inTargetInput, inputIndent =>
    if skipping ∧ startsL (trimL line) ['-'] then
      replaceLoop inputName newOptions rest true inTargetInput inputIndent
    else
      let trimmed := trimL line
      if startsL trimmed (inputName ++ [':']) then
        line :: replaceLoop inputName newOptions rest false true (leadWS line)
      else if inTargetInput then
        let currentIndent := leadWS line
        let inT2 : Bool :=
          if trimmed ≠ [] ∧ currentIndent.length ≤ inputIndent.length ∧
              ¬ startsL trimmed ['-'] then false else true
        if inT2 ∧ trimmed = "options:".data then
          let optionItemIndent := currentIndent ++ [' ', ' ']
          line :: (newOptions.map (fun opt => optionItemIndent ++ '-' :: ' ' :: opt) ++
            replaceLoop inputName newOptions rest true true inputIndent)
        else
          line :: replaceLoop inputName newOptions rest false inT2 inputIndent
      else
        line :: replaceLoop inputName newOptions rest false false inputIndent

/-- replaceOptionsWithRegex: splice the new options under the named input. -/
def replaceOptionsWithRegex (content inputName : Str) (newOptions : List Str) : Str :=
  joinNl (replaceLoop inputName newOptions (splitNl content) false false [])

/-- modifyWithFallback (lines 421-485): extract the current options by the
line scan, return the content unchanged when none are found, apply the
fallback policy switch and splice only when something changed. -/
def modifyWithFallback (content : Str) (o : Req) : Str :=
  let currentOptions := extractOptionsWithRegex content o.inputName
  if currentOptions.isEmpty then content
  else
    let res := applyActionFallback o.action currentOptions o.choiceValue o.newChoiceValue
    if res.2 then replaceOptionsWithRegex content o.inputName res.1 else content

/-! ### Round trips between split and join -/

theorem splitNl_ne_nil (s : Str) : splitNl s ≠ [] := by
  cases s with
  | nil => simp [splitNl]
  | cons c rest =>
    rw [splitNl]
    by_cases h : c = '\n'
    · simp [h]
    · rw [if_neg h]
      cases hs : splitNl rest with
      | nil => simp
      | cons h t => simp

theorem joinNl_cons_of_ne_nil (l : Str) (ls : List Str) (h : ls ≠ []) :
    joinNl (l :: ls) = l ++ '\n' :: joinNl ls := by
  cases ls with
  | nil => exact absurd rfl h
  | cons a t => rfl

/-- Splitting then joining gives back the original text: lines.join after
content.split is the identity. -/
theorem joinNl_splitNl (s : Str) : joinNl (splitNl s) = s := by
  induction s with
  | nil => rfl
  | cons c rest ih =>
    rw [splitNl]
    by_cases h : c = '\n'
    · rw [if_pos h, joinNl_cons_of_ne_nil _ _ (splitNl_ne_nil rest), ih, h]
      rfl
    · rw [if_neg h]
      cases hs : splitNl rest with
      | nil => exact absurd hs (splitNl_ne_nil rest)
      | cons hd t =>
        rw [hs] at ih
        cases t with
        | nil =>
          simp only [joinNl] at ih ⊢
          rw [ih]
        | cons x xs =>
          have e1 : joinNl ((c :: hd) :: x :: xs) = (c :: hd) ++ '\n' :: joinNl (x :: xs) :=
            joinNl_cons_of_ne_nil _ _ (by simp)
          have e2 : joinNl (hd :: x :: xs) = hd ++ '\n' :: joinNl (x :: xs) :=
            joinNl_cons_of_ne_nil _ _ (by simp)
          rw [e2] at ih
          rw [e1, List.cons_append, ih]

theorem splitNl_of_no_nl (l : Str) (h : '\n' ∉ l) : splitNl l = [l] := by
  induction l with
  | nil => rfl
  | cons c rest ih =>
    rw [splitNl, if_neg (by intro hc; exact h (hc ▸ List.mem_cons_self c rest))]
    rw [ih (fun hm => h (List.mem_cons_of_mem c hm))]

theorem splitNl_append_nl (l s : Str) (h : '\n' ∉ l) :
    splitNl (l ++ '\n' :: s) = l :: splitNl s := by
  induction l with
  | nil => simp [splitNl]
  | cons c rest ih =>
    rw [List.cons_append, splitNl,
      if_neg (by intro hc; exact h (hc ▸ List.mem_cons_self c rest))]
    rw [ih (fun hm => h (List.mem_cons_of_mem c hm))]

/-- Joining then splitting gives back the original lines, provided no line
contains a newline. -/
theorem splitNl_joinNl (ls : List Str) (hne : ls ≠ [])
    (h : ∀ l ∈ ls, '\n' ∉ l) : splitNl (joinNl ls) = ls := by
  induction ls with
  | nil => exact absurd rfl hne
  | cons l t ih =>
    cases t with
    | nil =>
      simp only [joinNl]
      exact splitNl_of_no_nl l (h l (List.mem_cons_self l []))
    | cons l2 t2 =>
      rw [joinNl_cons_of_ne_nil _ _ (by simp),
        splitNl_append_nl _ _ (h l (List.mem_cons_self _ _))]
      rw [ih (by simp) (fun x hx => h x (List.mem_cons_of_mem l hx))]

/-! ### The scan passes lines through when the input name is never located -/

theorem replaceLoop_not_found (name : Str) (vals : List Str) :
    ∀ (lines : List Str) (ind : Str),
      (∀ l ∈ lines, startsL (trimL l) (name ++ [':']) = false) →
      replaceLoop name vals lines false false ind = lines := by
  intro lines
  induction lines with
  | nil => intro ind _; rfl
  | cons line rest ih =>
    intro ind h
    have hline := h line (List.mem_cons_self _ _)
    rw [replaceLoop]
    simp only [hline, Bool.false_eq_true, false_and, if_false, List.cons.injEq, true_and]
    exact ih ind (fun l hl => h l (List.mem_cons_of_mem _ hl))

theorem extractLoop_not_found (name : Str) :
    ∀ (lines : List Str) (inOptions : Bool) (ind oind : Str) (acc : List Str),
      (∀ l ∈ lines, startsL (trimL l) (name ++ [':']) = false) →
      extractLoop name lines false inOptions ind oind acc = acc := by
  intro lines
  induction lines with
  | nil => intro inOptions ind oind acc _; rfl
  | cons line rest ih =>
    intro inOptions ind oind acc h
    have hline := h line (List.mem_cons_self _ _)
    rw [extractLoop]
    simp only [hline, Bool.false_eq_true, if_false]
    exact ih inOptions ind oind acc (fun l hl => h l (List.mem_cons_of_mem _ hl))

/-- When no line of the document locates the input name, the splice is the
identity on the whole text. -/
theorem replace_not_found_id (content name : Str) (vals : List Str)
    (h : ∀ l ∈ splitNl content, startsL (trimL l) (name ++ [':']) = false) :
    replaceOptionsWithRegex content name vals = content := by
  unfold replaceOptionsWithRegex
  rw [replaceLoop_not_found name vals (splitNl content) [] h, joinNl_splitNl]

/-- When no line of the document locates the input name, extraction returns
the empty sequence. -/
theorem extract_not_found_nil (content name : Str)
    (h : ∀ l ∈ splitNl content, startsL (trimL l) (name ++ [':']) = false) :
    extractOptionsWithRegex content name = [] := by
  unfold extractOptionsWithRegex
  exact extractLoop_not_found name (splitNl content) false [] [] [] h

/-- The stripping of one pair of matching surrounding quotes that the yaml
parser applies to a quoted scalar of the subset. -/
def stripPairQuotes (s : Str) : Str :=
  if 2 ≤ s.length ∧ ((s.head? = some quoteCh ∧ s.getLast? = some quoteCh) ∨
      (s.head? = some '"' ∧ s.getLast? = some '"')) then
    (s.drop 1).dropLast
  else s

/-- Characters of plain (unquoted) scalars and keys in the subset. -/
def isPlainChar (c : Char) : Bool :=
  c.isAlphanum || c = '-' || c = '_' || c = '.' || c = '/'

/-- A plain scalar: nonempty, alphanumeric first character, plain characters
throughout.  Such a scalar renders and re-parses as itself. -/
def plainVal : Str → Bool
  | [] => false
  | c :: rest => c.isAlphanum && rest.all isPlainChar

/-- A key as written in the document: plain, or a double-quoted plain word. -/
def rawKeyOk (s : Str) : Bool :=
  plainVal s ||
    (decide (2 ≤ s.length) && s.head? == some '"' && s.getLast? == some '"' &&
      plainVal (stripPairQuotes s))

/-- One attribute line group of an input: a scalar attribute, a key with a
null value, or the options sequence. -/
inductive IAttr where
  | scalar (k v : Str)
  | nullAttr (k : Str)
  | opts (vals : List Str)
deriving DecidableEq, Repr

def attrKey : IAttr → Str
  | .scalar k _ => k
  | .nullAttr k => k
  | .opts _ => "options".data

/-- One workflow_dispatch input: the key as written and its attributes. -/
structure MInput where
  rawName : Str
  attrs : List IAttr
deriving DecidableEq, Repr

/-- The input name as the yaml parser reports it (quotes removed). -/
def iname (i : MInput) : Str := stripPairQuotes i.rawName

/-- The workflow_dispatch section: none means no inputs key. -/
structure WdModel where
  inputs : Option (List MInput)
deriving DecidableEq, Repr

/-- The on section: verbatim lines before workflow_dispatch, then the parsed
workflow_dispatch section when present. -/
structure OnModel where
  pre : List Str
  wd : Option WdModel
deriving DecidableEq, Repr

/-- The whole document: verbatim lines before the on entry, the parsed on
section when present, verbatim lines after the on block. -/
structure MDoc where
  pre : List Str
  onb : Option OnModel
  post : List Str
deriving DecidableEq, Repr

def spaces (n : Nat) : Str := List.replicate n ' '

def renderAttr : IAttr → List Str
  | .scalar k v => [spaces 8 ++ k ++ ':' :: ' ' :: v]
  | .nullAttr k => [spaces 8 ++ k ++ [':']]
  | .opts vals =>
    (spaces 8 ++ "options:".data) :: vals.map (fun v => spaces 10 ++ '-' :: ' ' :: v)

def renderInput (i : MInput) : List Str :=
  (spaces 6 ++ i.rawName ++ [':']) :: i.attrs.flatMap renderAttr

def renderWd (w : WdModel) : List Str :=
  (spaces 2 ++ "workflow_dispatch:".data) ::
    (match w.inputs with
     | none => []
     | some l => (spaces 4 ++ "inputs:".data) :: l.flatMap renderInput)

def renderOn (o : OnModel) : List Str :=
  "on:".data :: (o.pre ++ (match o.wd with | none => [] | some w => renderWd w))

def renderLines (d : MDoc) : List Str :=
  d.pre ++ (match d.onb with | none => [] | some o => renderOn o) ++ d.post

/-- The model of doc.toString: the canonical serialization of the model
document. -/
def renderDoc (d : MDoc) : Str := joinNl (renderLines d)

/-- The model of doc.errors: the yaml library reports a document-level error
for every non-blank line indented with a tab character. -/
def yamlErrors (content : Str) : List Str :=
  (splitNl content).filterMap (fun l =>
    if (leadWS l).contains '\t' && !(trimL l).isEmpty then
      some ("tab as indent".data) else none)

/-- Split a line list at the first line satisfying p, dropping that line. -/
def splitAtFirst (p : Str → Bool) : List Str → Option (List Str × List Str)
  | [] => none
  | l :: rest =>
    if p l then some ([], rest)
    else
      match splitAtFirst p rest with
      | none => none
      | some (a, b) => some (l :: a, b)

/-- A line belongs to the block opened at indentation n when it is blank or
more indented. -/
def isBlockLine (n : Nat) (l : Str) : Bool :=
  (trimL l).isEmpty || decide (n < (leadWS l).length)

def spanBlock (n : Nat) (lines : List Str) : List Str × List Str :=
  (lines.takeWhile (isBlockLine n), lines.dropWhile (isBlockLine n))

/-- Split a trimmed attribute line into key and unquoted scalar value. -/
def splitKV (t : Str) : Option (Str × Str) :=
  let k := t.takeWhile (fun c => c ≠ ':')
  if k.isEmpty then none
  else
    match t.drop k.length with
    | ':' :: ' ' :: rest => some (k, stripPairQuotes (rest.dropWhile isWsChar))
    | _ => none

/-- Parse one line of an input attribute region against the attributes
collected so far: an option item line extends the options attribute opened
by the directly preceding options key, an indent-8 line opens a scalar or
null attribute. -/
def attrStep (attrs : List IAttr) (line : Str) : Option (List IAttr) :=
  let t := trimL line
  if leadWS line == spaces 10 && startsL t ['-', ' '] then
    match attrs.getLast? with
    | some (IAttr.opts vals) =>
      some (attrs.dropLast ++ [IAttr.opts (vals ++ [stripPairQuotes (t.drop 2)])])
    | some (IAttr.nullAttr k) =>
      if k = "options".data then
        some (attrs.dropLast ++ [IAttr.opts [stripPairQuotes (t.drop 2)]])
      else none
    | _ => none
  else if leadWS line == spaces 8 then
    if t.getLast? == some ':' then some (attrs ++ [IAttr.nullAttr t.dropLast])
    else
      match splitKV t with
      | some (k, v) => some (attrs ++ [IAttr.scalar k v])
      | none => none
  else none

/-- Parse the input region: an indent-6 key line opens a new input, any
other line is an attribute line of the input opened last. -/
def parseInputsGo (acc : List MInput) : List Str → Option (List MInput)
  | [] => some acc
  | line :: rest =>
    if leadWS line == spaces 6 then
      let t := trimL line
      if t.getLast? == some ':' && rawKeyOk t.dropLast then
        parseInputsGo (acc ++ [⟨t.dropLast, []⟩]) rest
      else none
    else
      match acc.getLast? with
      | none => none
      | some inp =>
        match attrStep inp.attrs line with
        | none => none
        | some attrs2 => parseInputsGo (acc.dropLast ++ [⟨inp.rawName, attrs2⟩]) rest

def parseWd (wdLines : List Str) : Option WdModel :=
  match splitAtFirst (fun l => l == spaces 4 ++ "inputs:".data) wdLines with
  | none => if wdLines.isEmpty then some ⟨none⟩ else none
  | some (p, rest) =>
    if p.isEmpty then
      match parseInputsGo [] rest with
      | some inputs => some ⟨some inputs⟩
      | none => none
    else none

def parseOn (onLines : List Str) : Option OnModel :=
  match splitAtFirst (fun l => l == spaces 2 ++ "workflow_dispatch:".data) onLines with
  | none => some ⟨onLines, none⟩
  | some (p, rest) =>
    match spanBlock 2 rest with
    | (wdLines, opost) =>
      if opost.isEmpty then
        match parseWd wdLines with
        | some w => some ⟨p, some w⟩
        | none => none
      else none

/-- The model of yaml.parseDocument on the canonical subset: the tree when
the document belongs to the subset. -/
def parseModel (content : Str) : Option MDoc :=
  match splitAtFirst (fun l => l == "on:".data) (splitNl content) with
  | none => some ⟨splitNl content, none, []⟩
  | some (p, rest) =>
    match spanBlock 0 rest with
    | (onLines, post) =>
      match parseOn onLines with
      | some o => some ⟨p, some o, post⟩
      | none => none

/-- The value of input.type in doc.toJS: the first scalar attribute named
type. -/
def attrType (attrs : List IAttr) : Option Str :=
  attrs.findSome? (fun a =>
    match a with
    | .scalar k v => if k = "type".data then some v else none
    | _ => none)

/-- The options sequence of the input when and only when the options key
holds a sequence (the Array.isArray test of the source). -/
def attrOptsArr (attrs : List IAttr) : Option (List Str) :=
  attrs.findSome? (fun a =>
    match a with
    | .opts vals => some vals
    | _ => none)

/-- The inputs record of workflow.on.workflow_dispatch in doc.toJS. -/
def wfInputs (d : MDoc) : Option (List MInput) :=
  match d.onb with
  | none => none
  | some o =>
    match o.wd with
    | none => none
    | some w => w.inputs

/-- The lookup inputs of inputName of the source, by parsed key name. -/
def findInput (inputs : List MInput) (name : Str) : Option MInput :=
  inputs.find? (fun i => iname i == name)

/-- The model of targetInput.set: replace the value of the options key in
place, appending the key when absent. -/
def setAttrOptions : List IAttr → List Str → List IAttr
  | [], vals => [IAttr.opts vals]
  | a :: rest, vals =>
    if attrKey a == "options".data then IAttr.opts vals :: rest
    else a :: setAttrOptions rest vals

def setInputOptions : List MInput → Str → List Str → List MInput
  | [], _, _ => []
  | i :: rest, name, vals =>
    if iname i == name then ⟨i.rawName, setAttrOptions i.attrs vals⟩ :: rest
    else i :: setInputOptions rest name vals

/-- The node navigation and set of lines 391-405: the mutated document. -/
def setOptionsDoc (d : MDoc) (name : Str) (vals : List Str) : MDoc :=
  { d with
    onb := d.onb.map (fun o =>
      { o with wd := o.wd.map (fun w =>
        ⟨w.inputs.map (fun l => setInputOptions l name vals)⟩) }) }

/-- The tail of the structural editor (lines 407-414): the defensive
re-check of doc.errors before stringifying; on errors the regex replacement
of the mutated currentOptions is returned instead of the serialized tree. -/
def structuralFinish (content inputName : Str) (currentOptions : List Str)
    (docErrors : List Str) (doc : MDoc) : Str :=
  if !docErrors.isEmpty then replaceOptionsWithRegex content inputName currentOptions
  else renderDoc doc

/-- modifyWorkflowContent, current revision (lines 306-415): parse, fall
back at once on document errors, navigate toJS, check eligibility, run the
policy, mutate the tree and serialize through the defensive re-check.  The
errors of the document are fixed at parse time; the mutated document carries
the same errors, which structuralFinish re-reads. -/
def modifyWorkflowContent (content : Str) (o : Req) : Str :=
  if !(yamlErrors content).isEmpty then modifyWithFallback content o
  else
    match parseModel content with
    | none => content
    | some doc =>
      match wfInputs doc with
      | none => content
      | some inputs =>
        if inputs.isEmpty then content
        else
          match findInput inputs o.inputName with
          | none => content
          | some input =>
            if !(attrType input.attrs == some "choice".data) ||
                (attrOptsArr input.attrs).isNone then content
            else
              let currentOptions := (attrOptsArr input.attrs).getD []
              let res := applyActionStructural o.action currentOptions
                o.choiceValue o.newChoiceValue
              if !res.2 then content
              else
                structuralFinish content o.inputName res.1 (yamlErrors content)
                  (setOptionsDoc doc o.inputName res.1)

/-- modifyWorkflowContent, earlier revision (lines 107-199 of the file
history): the same editor without the two fallback branches. -/
def modifyWorkflowContentV1 (content : Str) (o : Req) : Str :=
  match parseModel content with
  | none => content
  | some doc =>
    match wfInputs doc with
    | none => content
    | some inputs =>
      if inputs.isEmpty then content
      else
        match findInput inputs o.inputName with
        | none => content
        | some input =>
          if !(attrType input.attrs == some "choice".data) ||
              (attrOptsArr input.attrs).isNone then content
          else
            let currentOptions := (attrOptsArr input.attrs).getD []
            let res := applyActionStructural o.action currentOptions
              o.choiceValue o.newChoiceValue
            if !res.2 then content
            else renderDoc (setOptionsDoc doc o.inputName res.1)

/-- The option sequence a document carries for a named input, read through
the model parser. -/
def docOptions (content name : Str) : List Str :=
  match parseModel content with
  | none => []
  | some d =>
    match wfInputs d with
    | none => []
    | some inputs =>
      match findInput inputs name with
      | none => []
      | some i => (attrOptsArr i.attrs).getD []

theorem ws_char_cases (c : Char) (h : isWsChar c = true) :
    c = ' ' ∨ c = '\t' ∨ c = '\r' := by
  unfold isWsChar at h
  rcases Bool.or_eq_true_iff.mp h with h1 | h2
  · rcases Bool.or_eq_true_iff.mp h1 with ha | hb
    · exact Or.inl (by simpa using ha)
    · exact Or.inr (Or.inl (by simpa using hb))
  · exact Or.inr (Or.inr (by simpa using h2))

theorem plainChar_not_ws (c : Char) (h : isPlainChar c = true) : isWsChar c = false := by
  by_contra hne
  have hw : isWsChar c = true := by revert hne; cases isWsChar c <;> simp
  rcases ws_char_cases c hw with h1 | h2 | h3 <;> subst_vars <;> revert h <;> decide

theorem plainChar_ne_nl (c : Char) (h : isPlainChar c = true) : c ≠ '\n' := by
  intro he; subst he; revert h; decide

theorem plainChar_ne_colon (c : Char) (h : isPlainChar c = true) : c ≠ ':' := by
  intro he; subst he; revert h; decide

theorem plainChar_ne_tab (c : Char) (h : isPlainChar c = true) : c ≠ '\t' := by
  intro he; subst he; revert h; decide

theorem alphanum_plain (c : Char) (h : c.isAlphanum = true) : isPlainChar c = true := by
  unfold isPlainChar
  simp [h]

theorem plainVal_shape (s : Str) (h : plainVal s = true) :
    ∃ c r, s = c :: r ∧ c.isAlphanum = true ∧ (∀ x ∈ s, isPlainChar x = true) := by
  cases s with
  | nil => simp [plainVal] at h
  | cons c r =>
    unfold plainVal at h
    obtain ⟨h1, h2⟩ := Bool.and_eq_true_iff.mp h
    refine ⟨c, r, rfl, h1, ?_⟩
    intro x hx
    rcases List.mem_cons.mp hx with he | hm
    · subst he; exact alphanum_plain x h1
    · exact List.all_eq_true.mp h2 x hm

theorem spaces_ws (n : Nat) : ∀ c ∈ spaces n, isWsChar c = true := by
  intro c hc
  have := List.eq_of_mem_replicate hc
  subst this
  decide

theorem leadWS_spaces (n : Nat) : leadWS (spaces n) = spaces n := by
  unfold leadWS spaces
  rw [List.takeWhile_replicate]
  simp [isWsChar]

theorem leadWS_spaces_append (n : Nat) (c : Char) (r : Str) (h : isWsChar c = false) :
    leadWS (spaces n ++ c :: r) = spaces n := by
  unfold leadWS
  rw [List.takeWhile_append]
  have h1 : (spaces n).takeWhile isWsChar = spaces n := leadWS_spaces n
  rw [h1, if_pos rfl]
  rw [List.takeWhile_cons, h]
  simp

/-- A line content suitable for the canonical renderer: no whitespace at
either end. -/
def noWsEnds (s : Str) : Prop :=
  (∀ c, s.head? = some c → isWsChar c = false) ∧
    (∀ c, s.getLast? = some c → isWsChar c = false)

theorem trimL_spaces_append (n : Nat) (s : Str) (h : noWsEnds s) :
    trimL (spaces n ++ s) = s := by
  unfold trimL
  have hdrop : (spaces n ++ s).dropWhile isWsChar = s := by
    rw [List.dropWhile_append]
    have h1 : (spaces n).dropWhile isWsChar = [] := by
      unfold spaces
      rw [List.dropWhile_replicate]
      simp [isWsChar]
    rw [h1]
    simp only [List.isEmpty_nil, if_true]
    cases s with
    | nil => rfl
    | cons c r =>
      rw [List.dropWhile_cons, h.1 c rfl]
      simp
  rw [hdrop]
  cases hs : s.reverse with
  | nil =>
    have : s = [] := by simpa using congrArg List.reverse hs
    simp [this]
  | cons c r =>
    have hc : s.getLast? = some c := by
      rw [← List.head?_reverse, hs]
      rfl
    have h2 : List.dropWhile isWsChar (c :: r) = c :: r := by
      rw [List.dropWhile_cons, h.2 c hc]
      simp
    have h3 : List.reverse (c :: r) = s := by
      have h4 := congrArg List.reverse hs
      rw [List.reverse_reverse] at h4
      exact h4.symm
    rw [h2, h3]

theorem plainVal_noWsEnds (s : Str) (h : plainVal s = true) : noWsEnds s := by
  obtain ⟨c, r, hs, hc, hall⟩ := plainVal_shape s h
  constructor
  · intro x hx
    subst hs
    simp only [List.head?_cons, Option.some.injEq] at hx
    subst hx
    exact plainChar_not_ws c (alphanum_plain c hc)
  · intro x hx
    exact plainChar_not_ws x (hall x (List.mem_of_mem_getLast? hx))

/-! ### Well-formed canonical documents -/

/-- A raw verbatim line of the canonical subset: no embedded newline (it is
one line) and no tab (the document must be free of tab-as-indent errors). -/
def wfRawLine (l : Str) : Bool := !(l.contains '\n') && !(l.contains '\t')

def wfAttr : IAttr → Bool
  | .scalar k v => plainVal k && plainVal v
  | .nullAttr k => plainVal k
  | .opts vals => !vals.isEmpty && vals.all plainVal

def wfInput (i : MInput) : Bool :=
  rawKeyOk i.rawName && i.attrs.all wfAttr && decide ((i.attrs.map attrKey).Nodup)

def wfInputsList (l : List MInput) : Bool :=
  l.all wfInput && decide ((l.map iname).Nodup)

def wfWd (w : WdModel) : Bool :=
  match w.inputs with
  | none => true
  | some l => wfInputsList l

def wfOnPre (l : Str) : Bool :=
  wfRawLine l && isBlockLine 0 l && !(l == spaces 2 ++ "workflow_dispatch:".data)

def wfOn (o : OnModel) : Bool :=
  o.pre.all wfOnPre && (match o.wd with | none => true | some w => wfWd w)

def wfPost : List Str → Bool
  | [] => true
  | l :: rest =>
    (l :: rest).all wfRawLine && !(trimL l).isEmpty && (leadWS l).isEmpty &&
      !(startsL (trimL l) ['-'])

/-- Membership of the canonical subset on which the model parser inverts the
model serializer. -/
def wfDoc (d : MDoc) : Bool :=
  d.pre.all (fun l => wfRawLine l && !(l == "on:".data)) &&
  (match d.onb with
   | none => d.post.isEmpty && !d.pre.isEmpty
   | some o => wfOn o) &&
  wfPost d.post

/-! ### List splitting lemmas for the parser -/

theorem splitAtFirst_none (p : Str → Bool) :
    ∀ lines, (∀ l ∈ lines, p l = false) → splitAtFirst p lines = none := by
  intro lines
  induction lines with
  | nil => intro _; rfl
  | cons l rest ih =>
    intro h
    unfold splitAtFirst
    rw [h l (List.mem_cons_self _ _)]
    simp only [Bool.false_eq_true, if_false]
    rw [ih (fun x hx => h x (List.mem_cons_of_mem _ hx))]

theorem splitAtFirst_found (p : Str → Bool) (m : Str) (b : List Str) (hm : p m = true) :
    ∀ a, (∀ l ∈ a, p l = false) → splitAtFirst p (a ++ m :: b) = some (a, b) := by
  intro a
  induction a with
  | nil =>
    intro _
    unfold splitAtFirst
    rw [List.nil_append]
    simp [hm]
  | cons l rest ih =>
    intro h
    rw [List.cons_append]
    unfold splitAtFirst
    rw [h l (List.mem_cons_self _ _)]
    simp only [Bool.false_eq_true, if_false]
    rw [ih (fun x hx => h x (List.mem_cons_of_mem _ hx))]

theorem takeWhile_append_all {α : Type} (p : α → Bool) (a b : List α)
    (h : ∀ x ∈ a, p x = true) :
    (a ++ b).takeWhile p = a ++ b.takeWhile p := by
  induction a with
  | nil => simp
  | cons x xs ih =>
    rw [List.cons_append, List.takeWhile_cons, h x (List.mem_cons_self _ _)]
    simp only [if_true]
    rw [ih (fun y hy => h y (List.mem_cons_of_mem _ hy))]
    simp

theorem dropWhile_append_all {α : Type} (p : α → Bool) (a b : List α)
    (h : ∀ x ∈ a, p x = true) :
    (a ++ b).dropWhile p = b.dropWhile p := by
  induction a with
  | nil => simp
  | cons x xs ih =>
    rw [List.cons_append, List.dropWhile_cons, h x (List.mem_cons_self _ _)]
    simp only [if_true]
    exact ih (fun y hy => h y (List.mem_cons_of_mem _ hy))

theorem spanBlock_split (n : Nat) (a b : List Str)
    (ha : ∀ l ∈ a, isBlockLine n l = true)
    (hb : b = [] ∨ ∃ l r, b = l :: r ∧ isBlockLine n l = false) :
    spanBlock n (a ++ b) = (a, b) := by
  unfold spanBlock
  rcases hb with hb | ⟨l, r, hb, hl⟩
  · subst hb
    rw [List.append_nil]
    have h1 : List.takeWhile (isBlockLine n) a = a := by
      have := takeWhile_append_all (isBlockLine n) a [] ha
      simpa using this
    have h2 : List.dropWhile (isBlockLine n) a = [] := by
      have := dropWhile_append_all (isBlockLine n) a [] ha
      simpa using this
    rw [h1, h2]
  · subst hb
    rw [takeWhile_append_all _ _ _ ha, dropWhile_append_all _ _ _ ha,
      List.takeWhile_cons, List.dropWhile_cons, hl]
    simp


/-! ### Facts about plain scalars under the model parser -/

theorem getLast?_append_ne_nil {α : Type} (l l2 : List α) (h : l2 ≠ []) :
    (l ++ l2).getLast? = l2.getLast? := by
  rw [List.getLast?_append]
  cases hl : l2.getLast? with
  | none =>
    cases l2 with
    | nil => exact absurd rfl h
    | cons x xs => simp [List.getLast?_eq_none_iff] at hl
  | some a => rfl

theorem stripPairQuotes_plain (v : Str) (h : plainVal v = true) :
    stripPairQuotes v = v := by
  obtain ⟨c, r, hs, hc, -⟩ := plainVal_shape v h
  subst hs
  unfold stripPairQuotes
  rw [if_neg]
  intro hcond
  rcases hcond.2 with ⟨h1, -⟩ | ⟨h1, -⟩
  · have : c = quoteCh := by simpa using h1
    subst this
    revert hc
    decide
  · have : c = '"' := by simpa using h1
    subst this
    revert hc
    decide

theorem plainVal_getLast_ne_ws_or_colon (v : Str) (h : plainVal v = true) :
    ∀ c, v.getLast? = some c → isWsChar c = false ∧ c ≠ ':' := by
  intro c hc
  obtain ⟨-, -, -, -, hall⟩ := plainVal_shape v h
  have hm := hall c (List.mem_of_mem_getLast? hc)
  exact ⟨plainChar_not_ws c hm, plainChar_ne_colon c hm⟩

theorem noWsEnds_key_colon (k : Str) (hk : rawKeyOk k = true) :
    noWsEnds (k ++ [':']) := by
  constructor
  · intro c hc
    rcases Bool.or_eq_true_iff.mp hk with hp | hq
    · obtain ⟨c0, r, hs, hc0, -⟩ := plainVal_shape k hp
      subst hs
      simp only [List.cons_append, List.head?_cons, Option.some.injEq] at hc
      subst hc
      exact plainChar_not_ws c0 (alphanum_plain c0 hc0)
    · have h2 : (k.head? == some '"') = true :=
        (Bool.and_eq_true_iff.mp (Bool.and_eq_true_iff.mp
          (Bool.and_eq_true_iff.mp hq).1).1).2
      have hh : k.head? = some '"' := by simpa using h2
      cases k with
      | nil => simp at hh
      | cons c0 r =>
        have he : c0 = '"' := by simpa using hh
        subst he
        simp only [List.cons_append, List.head?_cons, Option.some.injEq] at hc
        subst hc
        decide
  · intro c hc
    rw [List.getLast?_concat] at hc
    have he : c = ':' := by
      have := hc
      simp only [Option.some.injEq] at this
      exact this.symm
    subst he
    decide

theorem noWsEnds_kv (k v : Str) (hk : plainVal k = true) (hv : plainVal v = true) :
    noWsEnds (k ++ ':' :: ' ' :: v) := by
  constructor
  · intro c hc
    obtain ⟨c0, r, hs, hc0, -⟩ := plainVal_shape k hk
    subst hs
    simp only [List.cons_append, List.head?_cons, Option.some.injEq] at hc
    subst hc
    exact plainChar_not_ws c0 (alphanum_plain c0 hc0)
  · intro c hc
    have hnil : v ≠ [] := by
      obtain ⟨c0, r, hs, -⟩ := plainVal_shape v hv
      subst hs
      simp
    have hre : k ++ ':' :: ' ' :: v = (k ++ [':', ' ']) ++ v := by simp
    rw [hre, getLast?_append_ne_nil _ _ hnil] at hc
    exact (plainVal_getLast_ne_ws_or_colon v hv c hc).1

theorem noWsEnds_item (v : Str) (hv : plainVal v = true) :
    noWsEnds ('-' :: ' ' :: v) := by
  constructor
  · intro c hc
    have he : c = '-' := by
      simp only [List.head?_cons, Option.some.injEq] at hc
      exact hc.symm
    subst he
    decide
  · intro c hc
    have hnil : v ≠ [] := by
      obtain ⟨c0, r, hs, -⟩ := plainVal_shape v hv
      subst hs
      simp
    have hre : '-' :: ' ' :: v = (['-', ' '] : Str) ++ v := by simp
    rw [hre, getLast?_append_ne_nil _ _ hnil] at hc
    exact (plainVal_getLast_ne_ws_or_colon v hv c hc).1

/-- The leading whitespace of a canonically rendered content line. -/
theorem leadWS_render (n : Nat) (s : Str) (hne : s ≠ [])
    (h : ∀ c, s.head? = some c → isWsChar c = false) :
    leadWS (spaces n ++ s) = spaces n := by
  cases s with
  | nil => exact absurd rfl hne
  | cons c r => exact leadWS_spaces_append n c r (h c rfl)

theorem rawKeyOk_head_not_ws (k : Str) (hk : rawKeyOk k = true) :
    ∀ c, k.head? = some c → isWsChar c = false := by
  intro c hc
  rcases Bool.or_eq_true_iff.mp hk with hp | hq
  · obtain ⟨c0, r, hs, hc0, -⟩ := plainVal_shape k hp
    subst hs
    have he : c = c0 := by
      simp only [List.head?_cons, Option.some.injEq] at hc
      exact hc.symm
    subst he
    exact plainChar_not_ws c (alphanum_plain c hc0)
  · have h2 : (k.head? == some '"') = true :=
      (Bool.and_eq_true_iff.mp (Bool.and_eq_true_iff.mp
        (Bool.and_eq_true_iff.mp hq).1).1).2
    have hh : k.head? = some '"' := by simpa using h2
    rw [hc] at hh
    have : c = '"' := by simpa using hh
    subst this
    decide

theorem plainVal_ne_nil (v : Str) (hv : plainVal v = true) : v ≠ [] := by
  obtain ⟨c0, r, hs, -⟩ := plainVal_shape v hv
  subst hs
  simp

/-! ### attrStep inverts renderAttr line by line -/

theorem takeWhile_ne_colon_key (k : Str) (rest : Str) (hall : ∀ x ∈ k, isPlainChar x = true) :
    (k ++ ':' :: rest).takeWhile (fun c => c ≠ ':') = k := by
  rw [takeWhile_append_all _ k _ (fun x hx => by
    simpa using plainChar_ne_colon x (hall x hx))]
  rw [List.takeWhile_cons]
  simp

theorem splitKV_render (k v : Str) (hk : plainVal k = true) (hv : plainVal v = true) :
    splitKV (k ++ ':' :: ' ' :: v) = some (k, v) := by
  obtain ⟨ck, rk, hk0, hck, hallk⟩ := plainVal_shape k hk
  obtain ⟨cv, rv, hv0, hcv, -⟩ := plainVal_shape v hv
  unfold splitKV
  rw [takeWhile_ne_colon_key k _ hallk]
  have hne : k.isEmpty = false := by rw [hk0]; rfl
  simp only [hne, Bool.false_eq_true, if_false, List.drop_left]
  have hdw : v.dropWhile isWsChar = v := by
    rw [hv0, List.dropWhile_cons,
      plainChar_not_ws cv (alphanum_plain cv hcv)]
    simp
  simp only [hdw, stripPairQuotes_plain v hv]

theorem attrStep_scalar (attrs : List IAttr) (k v : Str)
    (hk : plainVal k = true) (hv : plainVal v = true) :
    attrStep attrs (spaces 8 ++ k ++ ':' :: ' ' :: v) = some (attrs ++ [IAttr.scalar k v]) := by
  obtain ⟨ck, rk, hk0, hck, -⟩ := plainVal_shape k hk
  have hassoc : spaces 8 ++ k ++ ':' :: ' ' :: v = spaces 8 ++ (k ++ ':' :: ' ' :: v) := by
    simp
  have hlead : leadWS (spaces 8 ++ k ++ ':' :: ' ' :: v) = spaces 8 := by
    rw [hassoc]
    exact leadWS_render 8 _ (by rw [hk0]; simp)
      (noWsEnds_kv k v hk hv).1
  have htrim : trimL (spaces 8 ++ k ++ ':' :: ' ' :: v) = k ++ ':' :: ' ' :: v := by
    rw [hassoc]
    exact trimL_spaces_append 8 _ (noWsEnds_kv k v hk hv)
  have hlast : ((k ++ ':' :: ' ' :: v).getLast? == some ':') = false := by
    have hre : k ++ ':' :: ' ' :: v = (k ++ [':', ' ']) ++ v := by simp
    rw [hre, getLast?_append_ne_nil _ _ (plainVal_ne_nil v hv)]
    cases hvl : v.getLast? with
    | none =>
      exact absurd (List.getLast?_eq_none_iff.mp hvl) (plainVal_ne_nil v hv)
    | some c =>
      have hc := (plainVal_getLast_ne_ws_or_colon v hv c hvl).2
      simp [hc]
  have h810 : ((spaces 8 : Str) == spaces 10) = false := by decide
  have h88 : ((spaces 8 : Str) == spaces 8) = true := by decide
  unfold attrStep
  simp only [htrim, hlead, h810, h88, Bool.false_and, Bool.false_eq_true, if_false,
    if_true, hlast, splitKV_render k v hk hv]

theorem attrStep_null (attrs : List IAttr) (k : Str) (hk : rawKeyOk k = true) :
    attrStep attrs (spaces 8 ++ k ++ [':']) = some (attrs ++ [IAttr.nullAttr k]) := by
  have hassoc : spaces 8 ++ k ++ [':'] = spaces 8 ++ (k ++ [':']) := by simp
  have hkne : k ≠ [] := by
    intro he
    subst he
    simp [rawKeyOk, plainVal, stripPairQuotes] at hk
  have hlead : leadWS (spaces 8 ++ k ++ [':']) = spaces 8 := by
    rw [hassoc]
    refine leadWS_render 8 _ (by simp [hkne]) ?_
    intro c hc
    cases k with
    | nil => exact absurd rfl hkne
    | cons c0 r =>
      have he : c = c0 := by
        simp only [List.cons_append, List.head?_cons, Option.some.injEq] at hc
        exact hc.symm
      subst he
      exact rawKeyOk_head_not_ws (c :: r) hk c rfl
  have htrim : trimL (spaces 8 ++ k ++ [':']) = k ++ [':'] := by
    rw [hassoc]
    exact trimL_spaces_append 8 _ (noWsEnds_key_colon k hk)
  have hlast : ((k ++ [':']).getLast? == some ':') = true := by
    rw [List.getLast?_concat]
    rfl
  have h810 : ((spaces 8 : Str) == spaces 10) = false := by decide
  have h88 : ((spaces 8 : Str) == spaces 8) = true := by decide
  unfold attrStep
  simp only [htrim, hlead, h810, h88, Bool.false_and, Bool.false_eq_true, if_false,
    if_true, hlast, List.dropLast_concat]

theorem attrStep_item_opts (attrs : List IAttr) (vs : List Str) (v : Str)
    (hv : plainVal v = true) :
    attrStep (attrs ++ [IAttr.opts vs]) (spaces 10 ++ '-' :: ' ' :: v) =
      some (attrs ++ [IAttr.opts (vs ++ [v])]) := by
  have hlead : leadWS (spaces 10 ++ '-' :: ' ' :: v) = spaces 10 :=
    leadWS_spaces_append 10 '-' _ (by decide)
  have htrim : trimL (spaces 10 ++ '-' :: ' ' :: v) = '-' :: ' ' :: v :=
    trimL_spaces_append 10 _ (noWsEnds_item v hv)
  have hpre : startsL ('-' :: ' ' :: v) ['-', ' '] = true := by
    simp [startsL, List.isPrefixOf]
  have h1010 : ((spaces 10 : Str) == spaces 10) = true := by decide
  unfold attrStep
  simp only [htrim, hlead, h1010, hpre, Bool.and_self, if_true, List.getLast?_concat,
    List.dropLast_concat, List.drop, stripPairQuotes_plain v hv]

theorem attrStep_item_first (attrs : List IAttr) (v : Str) (hv : plainVal v = true) :
    attrStep (attrs ++ [IAttr.nullAttr ("options".data)]) (spaces 10 ++ '-' :: ' ' :: v) =
      some (attrs ++ [IAttr.opts [v]]) := by
  have hlead : leadWS (spaces 10 ++ '-' :: ' ' :: v) = spaces 10 :=
    leadWS_spaces_append 10 '-' _ (by decide)
  have htrim : trimL (spaces 10 ++ '-' :: ' ' :: v) = '-' :: ' ' :: v :=
    trimL_spaces_append 10 _ (noWsEnds_item v hv)
  have hpre : startsL ('-' :: ' ' :: v) ['-', ' '] = true := by
    simp [startsL, List.isPrefixOf]
  have h1010 : ((spaces 10 : Str) == spaces 10) = true := by decide
  unfold attrStep
  simp only [htrim, hlead, h1010, hpre, Bool.and_self, if_true, List.getLast?_concat,
    List.dropLast_concat, List.drop, stripPairQuotes_plain v hv]

/-! ### parseInputsGo inverts the input renderer -/

theorem lead_item_line (v : Str) :
    leadWS (spaces 10 ++ '-' :: ' ' :: v) = spaces 10 :=
  leadWS_spaces_append 10 '-' _ (by decide)

theorem lead_scalar_line (k v : Str) (hk : plainVal k = true) (hv : plainVal v = true) :
    leadWS (spaces 8 ++ k ++ ':' :: ' ' :: v) = spaces 8 := by
  have hassoc : spaces 8 ++ k ++ ':' :: ' ' :: v = spaces 8 ++ (k ++ ':' :: ' ' :: v) := by
    simp
  rw [hassoc]
  exact leadWS_render 8 _ (by
    obtain ⟨c0, r0, h0, -⟩ := plainVal_shape k hk
    rw [h0]; simp) (noWsEnds_kv k v hk hv).1

theorem lead_null_line (k : Str) (hk : rawKeyOk k = true) :
    leadWS (spaces 8 ++ k ++ [':']) = spaces 8 := by
  have hassoc : spaces 8 ++ k ++ [':'] = spaces 8 ++ (k ++ [':']) := by simp
  rw [hassoc]
  exact leadWS_render 8 _ (by
    intro he
    have : k = [] := by
      cases k with
      | nil => rfl
      | cons a b => simp at he
    subst this
    simp [rawKeyOk, plainVal, stripPairQuotes] at hk) (noWsEnds_key_colon k hk).1

theorem lead_name_line (nm : Str) (hk : rawKeyOk nm = true) :
    leadWS (spaces 6 ++ nm ++ [':']) = spaces 6 := by
  have hassoc : spaces 6 ++ nm ++ [':'] = spaces 6 ++ (nm ++ [':']) := by simp
  rw [hassoc]
  exact leadWS_render 6 _ (by
    intro he
    have : nm = [] := by
      cases nm with
      | nil => rfl
      | cons a b => simp at he
    subst this
    simp [rawKeyOk, plainVal, stripPairQuotes] at hk) (noWsEnds_key_colon nm hk).1

theorem plainVal_rawKeyOk (k : Str) (h : plainVal k = true) : rawKeyOk k = true := by
  unfold rawKeyOk
  rw [h]
  rfl

theorem attrStep_optsline (attrs : List IAttr) :
    attrStep attrs (spaces 8 ++ "options:".data) =
      some (attrs ++ [IAttr.nullAttr ("options".data)]) := by
  have he : (spaces 8 ++ "options:".data : Str) = spaces 8 ++ "options".data ++ [':'] := by
    decide
  rw [he]
  exact attrStep_null attrs ("options".data) (by decide)

theorem parseInputsGo_items (nm : Str) (vs2 : List Str) :
    ∀ (acc : List MInput) (attrs : List IAttr) (vs : List Str) (rest : List Str),
      vs2.all plainVal = true →
      parseInputsGo (acc ++ [⟨nm, attrs ++ [IAttr.opts vs]⟩])
        ((vs2.map (fun v => spaces 10 ++ '-' :: ' ' :: v)) ++ rest) =
      parseInputsGo (acc ++ [⟨nm, attrs ++ [IAttr.opts (vs ++ vs2)]⟩]) rest := by
  induction vs2 with
  | nil => intro acc attrs vs rest _; simp
  | cons v vrest ih =>
    intro acc attrs vs rest hall
    have hv : plainVal v = true := by
      have := List.all_eq_true.mp hall v (List.mem_cons_self _ _)
      simpa using this
    have hrest : vrest.all plainVal = true := by
      apply List.all_eq_true.mpr
      intro x hx
      exact List.all_eq_true.mp hall x (List.mem_cons_of_mem _ hx)
    rw [List.map_cons, List.cons_append]
    rw [parseInputsGo]
    have h106 : ((spaces 10 : Str) == spaces 6) = false := by decide
    simp only [lead_item_line, h106, Bool.false_eq_true, if_false,
      List.getLast?_concat, List.dropLast_concat, attrStep_item_opts attrs vs v hv]
    rw [ih acc attrs (vs ++ [v]) rest hrest]
    simp

theorem parseInputsGo_attrs (nm : Str) (as : List IAttr) :
    ∀ (acc : List MInput) (attrs : List IAttr) (rest : List Str),
      as.all wfAttr = true →
      parseInputsGo (acc ++ [⟨nm, attrs⟩]) ((as.flatMap renderAttr) ++ rest) =
      parseInputsGo (acc ++ [⟨nm, attrs ++ as⟩]) rest := by
  induction as with
  | nil => intro acc attrs rest _; simp
  | cons a arest ih =>
    intro acc attrs rest hall
    have ha : wfAttr a = true := by
      have := List.all_eq_true.mp hall a (List.mem_cons_self _ _)
      simpa using this
    have hrest : arest.all wfAttr = true := by
      apply List.all_eq_true.mpr
      intro x hx
      exact List.all_eq_true.mp hall x (List.mem_cons_of_mem _ hx)
    rw [List.flatMap_cons, List.append_assoc]
    have h86 : ((spaces 8 : Str) == spaces 6) = false := by decide
    cases a with
    | scalar k v =>
      obtain ⟨hk, hv⟩ := Bool.and_eq_true_iff.mp (by simpa [wfAttr] using ha)
      show parseInputsGo (acc ++ [⟨nm, attrs⟩])
        ((spaces 8 ++ k ++ ':' :: ' ' :: v) :: (arest.flatMap renderAttr ++ rest)) = _
      rw [parseInputsGo]
      simp only [lead_scalar_line k v hk hv, h86, Bool.false_eq_true, if_false,
        List.getLast?_concat, List.dropLast_concat, attrStep_scalar attrs k v hk hv]
      rw [ih acc (attrs ++ [IAttr.scalar k v]) rest hrest]
      simp
    | nullAttr k =>
      have hk : plainVal k = true := by simpa [wfAttr] using ha
      show parseInputsGo (acc ++ [⟨nm, attrs⟩])
        ((spaces 8 ++ k ++ [':']) :: (arest.flatMap renderAttr ++ rest)) = _
      rw [parseInputsGo]
      simp only [lead_null_line k (plainVal_rawKeyOk k hk), h86, Bool.false_eq_true,
        if_false, List.getLast?_concat, List.dropLast_concat,
        attrStep_null attrs k (plainVal_rawKeyOk k hk)]
      rw [ih acc (attrs ++ [IAttr.nullAttr k]) rest hrest]
      simp
    | opts vals =>
      have ha2 : ¬ vals = [] ∧ ∀ x ∈ vals, plainVal x = true := by
        simpa [wfAttr] using ha
      cases hv0 : vals with
      | nil => exact absurd hv0 ha2.1
      | cons v1 vrest =>
        subst hv0
        have hv1 : plainVal v1 = true := ha2.2 v1 (List.mem_cons_self _ _)
        have hvrest : vrest.all plainVal = true := by
          apply List.all_eq_true.mpr
          intro x hx
          exact ha2.2 x (List.mem_cons_of_mem _ hx)
        show parseInputsGo (acc ++ [⟨nm, attrs⟩])
          (((spaces 8 ++ "options:".data) :: (v1 :: vrest).map
            (fun v => spaces 10 ++ '-' :: ' ' :: v)) ++ (arest.flatMap renderAttr ++ rest)) = _
        rw [List.cons_append]
        rw [parseInputsGo]
        have hlead8 : leadWS (spaces 8 ++ "options:".data) = spaces 8 := by decide
        simp only [hlead8, h86, Bool.false_eq_true, if_false, List.getLast?_concat,
          List.dropLast_concat, attrStep_optsline attrs]
        rw [List.map_cons, List.cons_append]
        rw [parseInputsGo]
        have h106 : ((spaces 10 : Str) == spaces 6) = false := by decide
        simp only [lead_item_line, h106, Bool.false_eq_true, if_false,
          List.getLast?_concat, List.dropLast_concat,
          attrStep_item_first attrs v1 hv1]
        rw [parseInputsGo_items nm vrest acc attrs [v1]
          (arest.flatMap renderAttr ++ rest) hvrest]
        simp only [List.singleton_append]
        rw [ih acc (attrs ++ [IAttr.opts (v1 :: vrest)]) rest hrest]
        simp

theorem parseInputsGo_render (l : List MInput) :
    ∀ acc, l.all wfInput = true →
      parseInputsGo acc (l.flatMap renderInput) = some (acc ++ l) := by
  induction l with
  | nil => intro acc _; simp [parseInputsGo]
  | cons i rest ih =>
    intro acc hall
    have hi : wfInput i = true := by
      have := List.all_eq_true.mp hall i (List.mem_cons_self _ _)
      simpa using this
    have hrest : rest.all wfInput = true := by
      apply List.all_eq_true.mpr
      intro x hx
      exact List.all_eq_true.mp hall x (List.mem_cons_of_mem _ hx)
    have hkey : rawKeyOk i.rawName = true :=
      (Bool.and_eq_true_iff.mp (Bool.and_eq_true_iff.mp hi).1).1
    have hattrs : i.attrs.all wfAttr = true :=
      (Bool.and_eq_true_iff.mp (Bool.and_eq_true_iff.mp hi).1).2
    rw [List.flatMap_cons]
    show parseInputsGo acc
      ((spaces 6 ++ i.rawName ++ [':']) :: (i.attrs.flatMap renderAttr ++ rest.flatMap renderInput)) =
      some (acc ++ i :: rest)
    rw [parseInputsGo]
    have h66 : ((spaces 6 : Str) == spaces 6) = true := by decide
    have htrim : trimL (spaces 6 ++ i.rawName ++ [':']) = i.rawName ++ [':'] := by
      have hassoc : spaces 6 ++ i.rawName ++ [':'] = spaces 6 ++ (i.rawName ++ [':']) := by
        simp
      rw [hassoc]
      exact trimL_spaces_append 6 _ (noWsEnds_key_colon i.rawName hkey)
    simp only [lead_name_line i.rawName hkey, h66, if_true, htrim,
      List.getLast?_concat, List.dropLast_concat, hkey, Bool.and_self,
      beq_self_eq_true, Bool.true_and, Bool.and_true]
    rw [parseInputsGo_attrs i.rawName i.attrs acc [] (rest.flatMap renderInput) hattrs]
    have : (⟨i.rawName, [] ++ i.attrs⟩ : MInput) = i := by
      simp
    rw [this]
    rw [ih (acc ++ [i]) hrest]
    simp

/-! ### Facts about every rendered line -/

theorem contains_false_of_not_mem (l : Str) (c : Char) (h : c ∉ l) :
    l.contains c = false := by
  by_contra hne
  have : l.contains c = true := by revert hne; cases l.contains c <;> simp
  exact h (List.elem_iff.mp this)

theorem tab_not_mem_spaces (n : Nat) : '\t' ∉ spaces n := by
  intro h
  have := List.eq_of_mem_replicate h
  exact absurd this (by decide)

theorem no_nl_plain (s : Str) (h : plainVal s = true) : '\n' ∉ s := by
  intro hm
  obtain ⟨-, -, -, -, hall⟩ := plainVal_shape s h
  exact absurd rfl (plainChar_ne_nl _ (hall _ hm))

theorem rawKeyOk_chars (k : Str) (hk : rawKeyOk k = true) :
    ∀ c ∈ k, c = '"' ∨ isPlainChar c = true := by
  intro c hc
  rcases Bool.or_eq_true_iff.mp hk with hp | hq
  · obtain ⟨-, -, -, -, hall⟩ := plainVal_shape k hp
    exact Or.inr (hall c hc)
  · have hh : (k.head? == some '"') = true :=
      (Bool.and_eq_true_iff.mp (Bool.and_eq_true_iff.mp
        (Bool.and_eq_true_iff.mp hq).1).1).2
    have hmid : plainVal (stripPairQuotes k) = true :=
      (Bool.and_eq_true_iff.mp hq).2
    have hl : (k.getLast? == some '"') = true :=
      (Bool.and_eq_true_iff.mp (Bool.and_eq_true_iff.mp hq).1).2
    have hh2 : k.head? = some '"' := by simpa using hh
    have hl2 : k.getLast? = some '"' := by simpa using hl
    cases k with
    | nil => simp at hh2
    | cons c0 krest =>
      have he0 : c0 = '"' := by simpa using hh2
      subst he0
      rcases List.eq_nil_or_concat krest with hr | ⟨mid, d, hr⟩
      · subst hr
        have he : c = '"' := by simpa using hc
        exact Or.inl he
      · rw [List.concat_eq_append] at hr
        subst hr
        have hre : ('"' :: (mid ++ [d]) : Str) = ('"' :: mid) ++ [d] := by simp
        have hd : d = '"' := by
          rw [hre, List.getLast?_concat] at hl2
          simpa using hl2
        subst hd
        have hstrip : stripPairQuotes ('"' :: (mid ++ ['"'])) = mid := by
          unfold stripPairQuotes
          rw [if_pos]
          · simp
          · constructor
            · simp
            · right
              refine ⟨rfl, ?_⟩
              rw [hre, List.getLast?_concat]
        rcases List.mem_cons.mp hc with h0 | hrest
        · exact Or.inl h0
        · rcases List.mem_append.mp hrest with hm | hlast
          · rw [hstrip] at hmid
            obtain ⟨-, -, -, -, hall⟩ := plainVal_shape mid hmid
            exact Or.inr (hall c hm)
          · have he : c = '"' := by simpa using hlast
            exact Or.inl he

/-- The two per-line facts that the document-level round trip needs. -/
def lineOk (l : Str) : Prop :=
  '\n' ∉ l ∧ (leadWS l).contains '\t' = false

theorem not_mem_of_contains_false (l : Str) (c : Char) (h : l.contains c = false) :
    c ∉ l := by
  intro hm
  have : l.contains c = true := List.elem_iff.mpr hm
  rw [h] at this
  exact absurd this (by simp)

theorem lineOk_raw (l : Str) (h : wfRawLine l = true) : lineOk l := by
  obtain ⟨h1, h2⟩ := Bool.and_eq_true_iff.mp h
  have hn : l.contains '\n' = false := by
    revert h1; cases l.contains '\n' <;> simp
  have ht : l.contains '\t' = false := by
    revert h2; cases l.contains '\t' <;> simp
  refine ⟨not_mem_of_contains_false l _ hn, ?_⟩
  apply contains_false_of_not_mem
  intro hm
  exact not_mem_of_contains_false l _ ht ((List.takeWhile_prefix isWsChar).subset hm)

theorem lineOk_of_spaces_lead (l : Str) (m : Nat) (hm : leadWS l = spaces m)
    (hn : '\n' ∉ l) : lineOk l := by
  refine ⟨hn, ?_⟩
  rw [hm]
  exact contains_false_of_not_mem _ _ (tab_not_mem_spaces m)

theorem no_nl_append (a b : Str) (ha : '\n' ∉ a) (hb : '\n' ∉ b) : '\n' ∉ a ++ b := by
  intro hm
  rcases List.mem_append.mp hm with h | h
  · exact ha h
  · exact hb h

theorem no_nl_spaces (n : Nat) : '\n' ∉ spaces n := by
  intro h
  exact absurd (List.eq_of_mem_replicate h) (by decide)

theorem no_nl_key (k : Str) (hk : rawKeyOk k = true) : '\n' ∉ k := by
  intro hm
  rcases rawKeyOk_chars k hk '\n' hm with h | h
  · exact absurd h (by decide)
  · exact absurd rfl (plainChar_ne_nl _ h)

theorem isBlockLine_of_lead (l : Str) (m n : Nat) (hm : leadWS l = spaces m)
    (h : n < m) : isBlockLine n l = true := by
  unfold isBlockLine
  rw [hm]
  have : (spaces m).length = m := List.length_replicate m ' '
  rw [this]
  simp [h]

/-- Every line of a rendered input: clean, and indented at least six. -/
theorem renderInput_facts (i : MInput) (hi : wfInput i = true) :
    ∀ l ∈ renderInput i, lineOk l ∧ ∃ m, 6 ≤ m ∧ leadWS l = spaces m := by
  have hkey : rawKeyOk i.rawName = true :=
    (Bool.and_eq_true_iff.mp (Bool.and_eq_true_iff.mp hi).1).1
  have hattrs : i.attrs.all wfAttr = true :=
    (Bool.and_eq_true_iff.mp (Bool.and_eq_true_iff.mp hi).1).2
  intro l hl
  unfold renderInput at hl
  rcases List.mem_cons.mp hl with h0 | hflat
  · subst h0
    have hlead := lead_name_line i.rawName hkey
    refine ⟨lineOk_of_spaces_lead _ 6 hlead ?_, 6, Nat.le_refl 6, hlead⟩
    apply no_nl_append
    · apply no_nl_append
      · exact no_nl_spaces 6
      · exact no_nl_key i.rawName hkey
    · decide
  · obtain ⟨a, ha, hla⟩ := List.mem_flatMap.mp hflat
    have hwa : wfAttr a = true := List.all_eq_true.mp hattrs a ha
    cases a with
    | scalar k v =>
      obtain ⟨hk, hv⟩ := Bool.and_eq_true_iff.mp (by simpa [wfAttr] using hwa)
      have he : l = spaces 8 ++ k ++ ':' :: ' ' :: v := by simpa [renderAttr] using hla
      subst he
      have hlead := lead_scalar_line k v hk hv
      refine ⟨lineOk_of_spaces_lead _ 8 hlead ?_, 8, by omega, hlead⟩
      apply no_nl_append
      · apply no_nl_append
        · exact no_nl_spaces 8
        · exact no_nl_plain k hk
      · intro hm
        rcases List.mem_cons.mp hm with h | h
        · exact absurd h (by decide)
        · rcases List.mem_cons.mp h with h | h
          · exact absurd h (by decide)
          · exact no_nl_plain v hv h
    | nullAttr k =>
      have hk : plainVal k = true := by simpa [wfAttr] using hwa
      have he : l = spaces 8 ++ k ++ [':'] := by simpa [renderAttr] using hla
      subst he
      have hlead := lead_null_line k (plainVal_rawKeyOk k hk)
      refine ⟨lineOk_of_spaces_lead _ 8 hlead ?_, 8, by omega, hlead⟩
      apply no_nl_append
      · apply no_nl_append
        · exact no_nl_spaces 8
        · exact no_nl_plain k hk
      · decide
    | opts vals =>
      have ha2 : ¬ vals = [] ∧ ∀ x ∈ vals, plainVal x = true := by
        simpa [wfAttr] using hwa
      simp only [renderAttr] at hla
      rcases List.mem_cons.mp hla with h0 | hitem
      · subst h0
        have hlead : leadWS (spaces 8 ++ "options:".data) = spaces 8 := by decide
        exact ⟨lineOk_of_spaces_lead _ 8 hlead (by decide), 8, by omega, hlead⟩
      · obtain ⟨v, hv, hlv⟩ := List.mem_map.mp hitem
        have hpv := ha2.2 v hv
        subst hlv
        have hlead := lead_item_line v
        refine ⟨lineOk_of_spaces_lead _ 10 hlead ?_, 10, by omega, hlead⟩
        apply no_nl_append
        · exact no_nl_spaces 10
        · intro hm
          rcases List.mem_cons.mp hm with h | h
          · exact absurd h (by decide)
          · rcases List.mem_cons.mp h with h | h
            · exact absurd h (by decide)
            · exact no_nl_plain v hpv h

/-- Every line of the rendered workflow_dispatch section: clean, indented at
least two. -/
theorem renderWd_facts (w : WdModel) (hw : wfWd w = true) :
    ∀ l ∈ renderWd w, lineOk l ∧ ∃ m, 2 ≤ m ∧ leadWS l = spaces m := by
  intro l hl
  unfold renderWd at hl
  rcases List.mem_cons.mp hl with h0 | hrest
  · subst h0
    have hlead : leadWS (spaces 2 ++ "workflow_dispatch:".data) = spaces 2 := by decide
    exact ⟨lineOk_of_spaces_lead _ 2 hlead (by decide), 2, Nat.le_refl 2, hlead⟩
  · cases hin : w.inputs with
    | none => rw [hin] at hrest; simp at hrest
    | some inputs =>
      rw [hin] at hrest
      have hwl : wfInputsList inputs = true := by
        unfold wfWd at hw
        rw [hin] at hw
        exact hw
      have hall : inputs.all wfInput = true := (Bool.and_eq_true_iff.mp hwl).1
      rcases List.mem_cons.mp hrest with h0 | hflat
      · subst h0
        have hlead : leadWS (spaces 4 ++ "inputs:".data) = spaces 4 := by decide
        exact ⟨lineOk_of_spaces_lead _ 4 hlead (by decide), 4, by omega, hlead⟩
      · obtain ⟨i, hi, hli⟩ := List.mem_flatMap.mp hflat
        obtain ⟨hok, m, hm, hlead⟩ :=
          renderInput_facts i (List.all_eq_true.mp hall i hi) l hli
        exact ⟨hok, m, by omega, hlead⟩

/-! ### The document-level round trip -/

/-- The lines of the workflow_dispatch section below its own key line. -/
def wdTail (w : WdModel) : List Str :=
  match w.inputs with
  | none => []
  | some l => (spaces 4 ++ "inputs:".data) :: l.flatMap renderInput

theorem renderWd_eq_tail (w : WdModel) :
    renderWd w = (spaces 2 ++ "workflow_dispatch:".data) :: wdTail w := rfl

theorem wdTail_facts (w : WdModel) (hw : wfWd w = true) :
    ∀ l ∈ wdTail w, lineOk l ∧ ∃ m, 4 ≤ m ∧ leadWS l = spaces m := by
  intro l hl
  unfold wdTail at hl
  cases hin : w.inputs with
  | none => rw [hin] at hl; simp at hl
  | some inputs =>
    rw [hin] at hl
    have hall : inputs.all wfInput = true := by
      unfold wfWd at hw
      rw [hin] at hw
      exact (Bool.and_eq_true_iff.mp hw).1
    rcases List.mem_cons.mp hl with h0 | hflat
    · subst h0
      have hlead : leadWS (spaces 4 ++ "inputs:".data) = spaces 4 := by decide
      exact ⟨lineOk_of_spaces_lead _ 4 hlead (by decide), 4, Nat.le_refl 4, hlead⟩
    · obtain ⟨i, hi, hli⟩ := List.mem_flatMap.mp hflat
      obtain ⟨hok, m, hm, hlead⟩ :=
        renderInput_facts i (List.all_eq_true.mp hall i hi) l hli
      exact ⟨hok, m, by omega, hlead⟩

theorem parseWd_render (w : WdModel) (hw : wfWd w = true) :
    parseWd (wdTail w) = some w := by
  cases hin : w.inputs with
  | none =>
    have ht : wdTail w = [] := by unfold wdTail; rw [hin]
    rw [ht]
    unfold parseWd splitAtFirst
    simp only [List.isEmpty_nil, if_true]
    cases w with
    | mk inputs => simp only at hin; rw [hin]
  | some inputs =>
    have hall : inputs.all wfInput = true := by
      unfold wfWd at hw
      rw [hin] at hw
      exact (Bool.and_eq_true_iff.mp hw).1
    have ht : wdTail w = (spaces 4 ++ "inputs:".data) :: inputs.flatMap renderInput := by
      unfold wdTail; rw [hin]
    rw [ht]
    unfold parseWd
    rw [splitAtFirst]
    simp only [beq_self_eq_true, if_true]
    simp only [List.isEmpty_nil, if_true]
    rw [parseInputsGo_render inputs [] hall]
    simp only [List.nil_append]
    cases w with
    | mk inputs2 => simp only at hin; rw [hin]

theorem parseOn_render (o : OnModel) (ho : wfOn o = true) :
    parseOn (o.pre ++ (match o.wd with | none => [] | some w => renderWd w)) = some o := by
  have hpre : ∀ l ∈ o.pre, wfOnPre l = true :=
    fun l hl => List.all_eq_true.mp (Bool.and_eq_true_iff.mp ho).1 l hl
  have hprene : ∀ l ∈ o.pre,
      (l == spaces 2 ++ "workflow_dispatch:".data) = false := by
    intro l hl
    have h2 := (Bool.and_eq_true_iff.mp (hpre l hl)).2
    revert h2
    cases l == spaces 2 ++ "workflow_dispatch:".data <;> simp
  cases hwd : o.wd with
  | none =>
    show parseOn (o.pre ++ []) = some o
    rw [List.append_nil]
    unfold parseOn
    rw [splitAtFirst_none _ o.pre hprene]
    cases o with
    | mk pre wd => simp only at hwd; rw [hwd]
  | some w =>
    have hw : wfWd w = true := by
      have h2 := (Bool.and_eq_true_iff.mp ho).2
      rw [hwd] at h2
      exact h2
    show parseOn (o.pre ++ renderWd w) = some o
    unfold parseOn
    have hmarker : ((spaces 2 ++ "workflow_dispatch:".data : Str) ==
        spaces 2 ++ "workflow_dispatch:".data) = true := by decide
    rw [renderWd_eq_tail,
      splitAtFirst_found (fun l => l == spaces 2 ++ "workflow_dispatch:".data)
        (spaces 2 ++ "workflow_dispatch:".data) (wdTail w) hmarker o.pre hprene]
    have hblock : spanBlock 2 (wdTail w) = (wdTail w, []) := by
      have hsplit := spanBlock_split 2 (wdTail w) []
      rw [List.append_nil] at hsplit
      apply hsplit
      · intro l hl
        obtain ⟨-, m, hm, hlead⟩ := wdTail_facts w hw l hl
        exact isBlockLine_of_lead l m 2 hlead (by omega)
      · exact Or.inl rfl
    simp only [hblock, List.isEmpty_nil, if_true, parseWd_render w hw]
    cases o with
    | mk pre wd => simp only at hwd; rw [hwd]

theorem wfPost_all_raw (post : List Str) (h : wfPost post = true) :
    ∀ l ∈ post, wfRawLine l = true := by
  cases post with
  | nil => intro l hl; simp at hl
  | cons p rest =>
    intro l hl
    unfold wfPost at h
    have hall : (p :: rest).all wfRawLine = true :=
      (Bool.and_eq_true_iff.mp (Bool.and_eq_true_iff.mp
        (Bool.and_eq_true_iff.mp h).1).1).1
    exact List.all_eq_true.mp hall l hl

theorem renderLines_lineOk (d : MDoc) (hd : wfDoc d = true) :
    ∀ l ∈ renderLines d, lineOk l := by
  have hpre := (Bool.and_eq_true_iff.mp (Bool.and_eq_true_iff.mp hd).1).1
  have honb := (Bool.and_eq_true_iff.mp (Bool.and_eq_true_iff.mp hd).1).2
  have hpost := (Bool.and_eq_true_iff.mp hd).2
  intro l hl
  unfold renderLines at hl
  rcases List.mem_append.mp hl with h1 | h2
  · rcases List.mem_append.mp h1 with hp | hon
    · have := List.all_eq_true.mp hpre l hp
      exact lineOk_raw l (Bool.and_eq_true_iff.mp this).1
    · cases hob : d.onb with
      | none => rw [hob] at hon; simp at hon
      | some o =>
        rw [hob] at hon honb
        unfold renderOn at hon
        rcases List.mem_cons.mp hon with h0 | hrest
        · subst h0
          constructor
          · decide
          · decide
        · rcases List.mem_append.mp hrest with hp | hwdl
          · have := List.all_eq_true.mp (Bool.and_eq_true_iff.mp honb).1 l hp
            exact lineOk_raw l (Bool.and_eq_true_iff.mp
              (Bool.and_eq_true_iff.mp this).1).1
          · cases hwd : o.wd with
            | none => rw [hwd] at hwdl; simp at hwdl
            | some w =>
              rw [hwd] at hwdl
              have hw : wfWd w = true := by
                have h2 := (Bool.and_eq_true_iff.mp honb).2
                rw [hwd] at h2
                exact h2
              exact (renderWd_facts w hw l hwdl).1
  · exact lineOk_raw l (wfPost_all_raw d.post hpost l h2)

theorem renderLines_ne_nil (d : MDoc) (hd : wfDoc d = true) :
    renderLines d ≠ [] := by
  have honb := (Bool.and_eq_true_iff.mp (Bool.and_eq_true_iff.mp hd).1).2
  unfold renderLines
  cases hob : d.onb with
  | none =>
    rw [hob] at honb
    have hne : d.pre ≠ [] := by
      have := (Bool.and_eq_true_iff.mp honb).2
      revert this
      cases d.pre <;> simp
    intro he
    apply hne
    rcases List.append_eq_nil.mp he with ⟨h1, -⟩
    exact (List.append_eq_nil.mp h1).1
  | some o =>
    intro he
    rcases List.append_eq_nil.mp he with ⟨h1, -⟩
    have h2 := (List.append_eq_nil.mp h1).2
    simp [renderOn] at h2

/-- Splitting the rendered document gives back the rendered lines. -/
theorem splitNl_renderDoc (d : MDoc) (hd : wfDoc d = true) :
    splitNl (renderDoc d) = renderLines d := by
  unfold renderDoc
  exact splitNl_joinNl (renderLines d) (renderLines_ne_nil d hd)
    (fun l hl => (renderLines_lineOk d hd l hl).1)

/-- A rendered well-formed document carries no model yaml errors. -/
theorem yamlErrors_render (d : MDoc) (hd : wfDoc d = true) :
    yamlErrors (renderDoc d) = [] := by
  unfold yamlErrors
  rw [splitNl_renderDoc d hd]
  apply List.filterMap_eq_nil_iff.mpr
  intro l hl
  have hok := (renderLines_lineOk d hd l hl).2
  rw [hok]
  rfl

/-- The model parser inverts the model serializer on the canonical subset. -/
theorem parseModel_render (d : MDoc) (hd : wfDoc d = true) :
    parseModel (renderDoc d) = some d := by
  have hpre := (Bool.and_eq_true_iff.mp (Bool.and_eq_true_iff.mp hd).1).1
  have honb := (Bool.and_eq_true_iff.mp (Bool.and_eq_true_iff.mp hd).1).2
  have hpost := (Bool.and_eq_true_iff.mp hd).2
  have hprene : ∀ l ∈ d.pre, (l == "on:".data) = false := by
    intro l hl
    have h2 := (Bool.and_eq_true_iff.mp (List.all_eq_true.mp hpre l hl)).2
    revert h2
    cases l == "on:".data <;> simp
  unfold parseModel
  rw [splitNl_renderDoc d hd]
  cases hob : d.onb with
  | none =>
    rw [hob] at honb
    have hpe : d.post = [] := by
      have := (Bool.and_eq_true_iff.mp honb).1
      revert this
      cases d.post <;> simp
    have hrl : renderLines d = d.pre := by
      unfold renderLines
      rw [hob, hpe]
      simp
    rw [hrl, splitAtFirst_none _ d.pre hprene]
    cases d with
    | mk pre onb post =>
      simp only at hob hpe
      rw [hob, hpe]
  | some o =>
    rw [hob] at honb
    have hrl : renderLines d = d.pre ++ ("on:".data ::
        ((o.pre ++ (match o.wd with | none => [] | some w => renderWd w)) ++ d.post)) := by
      unfold renderLines renderOn
      rw [hob]
      simp
    rw [hrl]
    have hon : (("on:".data : Str) == "on:".data) = true := by decide
    rw [splitAtFirst_found (fun l => l == "on:".data) ("on:".data)
      ((o.pre ++ (match o.wd with | none => [] | some w => renderWd w)) ++ d.post)
      hon d.pre hprene]
    have hblock : spanBlock 0
        ((o.pre ++ (match o.wd with | none => [] | some w => renderWd w)) ++ d.post) =
        ((o.pre ++ (match o.wd with | none => [] | some w => renderWd w)), d.post) := by
      apply spanBlock_split
      · intro l hl
        rcases List.mem_append.mp hl with hp | hwdl
        · have := List.all_eq_true.mp (Bool.and_eq_true_iff.mp honb).1 l hp
          exact (Bool.and_eq_true_iff.mp (Bool.and_eq_true_iff.mp this).1).2
        · cases hwd : o.wd with
          | none => rw [hwd] at hwdl; simp at hwdl
          | some w =>
            rw [hwd] at hwdl
            have hw : wfWd w = true := by
              have h2 := (Bool.and_eq_true_iff.mp honb).2
              rw [hwd] at h2
              exact h2
            obtain ⟨-, m, hm, hlead⟩ := renderWd_facts w hw l hwdl
            exact isBlockLine_of_lead l m 0 hlead (by omega)
      · cases hps : d.post with
        | nil => exact Or.inl rfl
        | cons p rest =>
          refine Or.inr ⟨p, rest, rfl, ?_⟩
          rw [hps] at hpost
          unfold wfPost at hpost
          have htr : (trimL p).isEmpty = false := by
            have h2 := (Bool.and_eq_true_iff.mp (Bool.and_eq_true_iff.mp
              (Bool.and_eq_true_iff.mp hpost).1).1).2
            revert h2
            cases (trimL p).isEmpty <;> simp
          have hld : (leadWS p).isEmpty = true :=
            (Bool.and_eq_true_iff.mp (Bool.and_eq_true_iff.mp hpost).1).2
          unfold isBlockLine
          rw [htr]
          have : (leadWS p).length = 0 := by
            rcases List.isEmpty_iff.mp hld with h
            rw [h]
            rfl
          rw [this]
          simp
    simp only [hblock, List.isEmpty_nil, if_true, parseOn_render o honb]
    cases d with
    | mk pre onb post =>
      simp only at hob
      rw [hob]

/-! ### Decompositions of lookups and the set operation -/

theorem find?_decomp {α : Type} (p : α → Bool) :
    ∀ (l : List α) (a : α), l.find? p = some a →
      ∃ as bs, l = as ++ a :: bs ∧ (∀ x ∈ as, p x = false) ∧ p a = true := by
  intro l
  induction l with
  | nil => intro a h; simp at h
  | cons x xs ih =>
    intro a h
    rw [List.find?_cons] at h
    cases hp : p x with
    | true =>
      rw [hp] at h
      have : x = a := by simpa using h
      subst this
      exact ⟨[], xs, rfl, by simp, hp⟩
    | false =>
      rw [hp] at h
      obtain ⟨as, bs, he, hall, hpa⟩ := ih a h
      exact ⟨x :: as, bs, by rw [he]; rfl, by
        intro y hy
        rcases List.mem_cons.mp hy with h1 | h2
        · subst h1; exact hp
        · exact hall y h2, hpa⟩

theorem findSome?_decomp {α β : Type} (f : α → Option β) :
    ∀ (l : List α) (b : β), l.findSome? f = some b →
      ∃ as x bs, l = as ++ x :: bs ∧ (∀ y ∈ as, f y = none) ∧ f x = some b := by
  intro l
  induction l with
  | nil => intro b h; simp at h
  | cons x xs ih =>
    intro b h
    rw [List.findSome?_cons] at h
    cases hf : f x with
    | some c =>
      rw [hf] at h
      have : c = b := by simpa using h
      subst this
      exact ⟨[], x, xs, rfl, by simp, hf⟩
    | none =>
      rw [hf] at h
      obtain ⟨as, y, bs, he, hall, hfy⟩ := ih b h
      exact ⟨x :: as, y, bs, by rw [he]; rfl, by
        intro z hz
        rcases List.mem_cons.mp hz with h1 | h2
        · subst h1; exact hf
        · exact hall z h2, hfy⟩

/-- An attribute list with a sequence-valued options key and no duplicate
keys splits around that options attribute. -/
theorem attrs_decomp (attrs : List IAttr) (vals : List Str)
    (h : attrOptsArr attrs = some vals)
    (hnd : (attrs.map attrKey).Nodup) :
    ∃ aPre aPost, attrs = aPre ++ IAttr.opts vals :: aPost ∧
      (∀ a ∈ aPre, attrKey a ≠ "options".data) ∧
      (∀ a ∈ aPost, attrKey a ≠ "options".data) := by
  obtain ⟨aPre, x, aPost, he, hall, hfx⟩ := findSome?_decomp _ attrs vals h
  have hx : x = IAttr.opts vals := by
    cases x with
    | scalar k v => simp at hfx
    | nullAttr k => simp at hfx
    | opts vs => simpa using congrArg (fun o => (Option.map IAttr.opts o).getD (IAttr.opts vs)) hfx
  subst hx
  subst he
  rw [List.map_append, List.map_cons] at hnd
  have hkey : attrKey (IAttr.opts vals) = "options".data := rfl
  rw [hkey] at hnd
  have hcons := (List.nodup_append.mp hnd).2.1
  have hnotmem : ("options".data : Str) ∉ aPost.map attrKey := (List.nodup_cons.mp hcons).1
  have hdisj := (List.nodup_append.mp hnd).2.2
  refine ⟨aPre, aPost, rfl, ?_, ?_⟩
  · intro a ha he
    exact hdisj (List.mem_map_of_mem attrKey ha)
      (by rw [he]; exact List.mem_cons_self _ _)
  · intro a ha he
    apply hnotmem
    rw [← he]
    exact List.mem_map_of_mem attrKey ha

theorem setAttrOptions_decomp (aPre aPost : List IAttr) (vals vals2 : List Str)
    (hpre : ∀ a ∈ aPre, attrKey a ≠ "options".data) :
    setAttrOptions (aPre ++ IAttr.opts vals :: aPost) vals2 =
      aPre ++ IAttr.opts vals2 :: aPost := by
  induction aPre with
  | nil =>
    rw [List.nil_append, List.nil_append]
    have ht : (attrKey (IAttr.opts vals) == "options".data) = true := rfl
    unfold setAttrOptions
    rw [ht]
    simp
  | cons a arest ih =>
    rw [List.cons_append, List.cons_append]
    unfold setAttrOptions
    have hne : (attrKey a == "options".data) = false := by
      have h2 := hpre a (List.mem_cons_self _ _)
      revert h2
      cases h : attrKey a == "options".data
      · simp
      · intro hne2
        exact absurd (by simpa using h) hne2
    rw [hne]
    simp only [Bool.false_eq_true, if_false, List.cons.injEq, true_and]
    exact ih (fun x hx => hpre x (List.mem_cons_of_mem _ hx))

theorem attrOptsArr_after_set (aPre aPost : List IAttr) (vals2 : List Str)
    (hpre : ∀ a ∈ aPre, attrKey a ≠ "options".data) :
    attrOptsArr (aPre ++ IAttr.opts vals2 :: aPost) = some vals2 := by
  induction aPre with
  | nil => simp [attrOptsArr]
  | cons a arest ih =>
    rw [List.cons_append]
    have hrec := ih (fun x hx => hpre x (List.mem_cons_of_mem _ hx))
    cases a with
    | scalar k v =>
      unfold attrOptsArr at hrec ⊢
      rw [List.findSome?_cons]
      exact hrec
    | nullAttr k =>
      unfold attrOptsArr at hrec ⊢
      rw [List.findSome?_cons]
      exact hrec
    | opts vs =>
      exact absurd rfl (hpre (IAttr.opts vs) (List.mem_cons_self _ _))

theorem attrType_after_set (aPre aPost : List IAttr) (vals vals2 : List Str)
    ( _hpre : ∀ a ∈ aPre, attrKey a ≠ "options".data) :
    attrType (aPre ++ IAttr.opts vals2 :: aPost) =
      attrType (aPre ++ IAttr.opts vals :: aPost) := by
  unfold attrType
  rw [List.findSome?_append, List.findSome?_append]
  have h1 : List.findSome? (fun a =>
      match a with
      | IAttr.scalar k v => if k = "type".data then some v else none
      | _ => none) (IAttr.opts vals2 :: aPost) =
    List.findSome? (fun a =>
      match a with
      | IAttr.scalar k v => if k = "type".data then some v else none
      | _ => none) (IAttr.opts vals :: aPost) := by
    rw [List.findSome?_cons, List.findSome?_cons]
  rw [h1]

theorem find?_append_found {α : Type} (p : α → Bool) (a : α) (bs : List α)
    (hp : p a = true) :
    ∀ as, (∀ x ∈ as, p x = false) → (as ++ a :: bs).find? p = some a := by
  intro as
  induction as with
  | nil =>
    intro _
    rw [List.nil_append, List.find?_cons, hp]
  | cons x xs ih =>
    intro h
    rw [List.cons_append, List.find?_cons, h x (List.mem_cons_self _ _)]
    exact ih (fun y hy => h y (List.mem_cons_of_mem _ hy))

theorem setInputOptions_decomp (postI : List MInput) (i : MInput) (name : Str)
    (vals : List Str) (hi : iname i = name) :
    ∀ preI, (∀ j ∈ preI, (iname j == name) = false) →
      setInputOptions (preI ++ i :: postI) name vals =
        preI ++ (⟨i.rawName, setAttrOptions i.attrs vals⟩ : MInput) :: postI := by
  intro preI
  induction preI with
  | nil =>
    intro _
    rw [List.nil_append, List.nil_append]
    unfold setInputOptions
    have ht : (iname i == name) = true := by
      rw [hi]
      exact beq_self_eq_true name
    rw [ht]
    simp
  | cons j rest ih =>
    intro h
    rw [List.cons_append, List.cons_append]
    unfold setInputOptions
    rw [h j (List.mem_cons_self _ _)]
    simp only [Bool.false_eq_true, if_false, List.cons.injEq, true_and]
    exact ih (fun y hy => h y (List.mem_cons_of_mem _ hy))

theorem wfInput_set (i : MInput) (hi : wfInput i = true) (vals vals2 : List Str)
    (hopts : attrOptsArr i.attrs = some vals)
    (hne2 : vals2 ≠ []) (hv2 : ∀ v ∈ vals2, plainVal v = true) :
    wfInput ⟨i.rawName, setAttrOptions i.attrs vals2⟩ = true ∧
      (setAttrOptions i.attrs vals2).map attrKey = i.attrs.map attrKey ∧
      attrOptsArr (setAttrOptions i.attrs vals2) = some vals2 ∧
      attrType (setAttrOptions i.attrs vals2) = attrType i.attrs := by
  have hkey : rawKeyOk i.rawName = true :=
    (Bool.and_eq_true_iff.mp (Bool.and_eq_true_iff.mp hi).1).1
  have hattrs : i.attrs.all wfAttr = true :=
    (Bool.and_eq_true_iff.mp (Bool.and_eq_true_iff.mp hi).1).2
  have hnd : (i.attrs.map attrKey).Nodup := by
    have := (Bool.and_eq_true_iff.mp hi).2
    simpa using this
  obtain ⟨aPre, aPost, hsplit, hpre, hpost⟩ := attrs_decomp i.attrs vals hopts hnd
  have hset : setAttrOptions i.attrs vals2 = aPre ++ IAttr.opts vals2 :: aPost := by
    rw [hsplit]
    exact setAttrOptions_decomp aPre aPost vals vals2 hpre
  have hmap : (aPre ++ IAttr.opts vals2 :: aPost).map attrKey =
      (aPre ++ IAttr.opts vals :: aPost).map attrKey := by
    rw [List.map_append, List.map_append, List.map_cons, List.map_cons]
    rfl
  refine ⟨?_, ?_, ?_, ?_⟩
  · unfold wfInput
    rw [hkey]
    have hall2 : (setAttrOptions i.attrs vals2).all wfAttr = true := by
      rw [hset]
      apply List.all_eq_true.mpr
      intro a ha
      rcases List.mem_append.mp ha with h1 | h2
      · exact List.all_eq_true.mp hattrs a (by rw [hsplit]; exact List.mem_append_left _ h1)
      · rcases List.mem_cons.mp h2 with h3 | h4
        · subst h3
          unfold wfAttr
          rw [Bool.and_eq_true_iff]
          constructor
          · revert hne2; cases vals2 <;> simp
          · exact List.all_eq_true.mpr hv2
        · exact List.all_eq_true.mp hattrs a
            (by rw [hsplit]; exact List.mem_append_right _ (List.mem_cons_of_mem _ h4))
    rw [hall2]
    simp only [Bool.true_and]
    rw [hset, hmap, ← hsplit]
    simpa using hnd
  · rw [hset, hmap, ← hsplit]
  · rw [hset]
    exact attrOptsArr_after_set aPre aPost vals2 hpre
  · rw [hset, hsplit]
    exact attrType_after_set aPre aPost vals vals2 hpre

/-- The shape of the document after the options replacement. -/
theorem wfInputs_set (d : MDoc) (name : Str) (vals : List Str) (inputs : List MInput)
    (hin : wfInputs d = some inputs) :
    wfInputs (setOptionsDoc d name vals) = some (setInputOptions inputs name vals) ∧
    (setOptionsDoc d name vals).pre = d.pre ∧
    (setOptionsDoc d name vals).post = d.post := by
  cases d with
  | mk pre onb post =>
    cases onb with
    | none => simp [wfInputs] at hin
    | some o =>
      cases o with
      | mk opre owd =>
        cases owd with
        | none => simp [wfInputs] at hin
        | some w =>
          cases w with
          | mk winputs =>
            cases winputs with
            | none => simp [wfInputs] at hin
            | some l =>
              have hl : l = inputs := by simpa [wfInputs] using hin
              subst hl
              refine ⟨?_, rfl, rfl⟩
              simp [setOptionsDoc, wfInputs]

theorem inputs_decomp (inputs : List MInput) (name : Str) (i : MInput)
    (hfind : findInput inputs name = some i) :
    ∃ preI postI, inputs = preI ++ i :: postI ∧
      (∀ j ∈ preI, (iname j == name) = false) ∧ iname i = name := by
  obtain ⟨preI, postI, he, hall, hp⟩ := find?_decomp _ inputs i hfind
  exact ⟨preI, postI, he, hall, by simpa using hp⟩

theorem set_lookup (inputs : List MInput) (i : MInput) (name : Str)
    (vals vals2 : List Str)
    (hall : wfInputsList inputs = true)
    (hfind : findInput inputs name = some i)
    (hopts : attrOptsArr i.attrs = some vals)
    (hne2 : vals2 ≠ []) (hv2 : ∀ v ∈ vals2, plainVal v = true) :
    findInput (setInputOptions inputs name vals2) name =
        some ⟨i.rawName, setAttrOptions i.attrs vals2⟩ ∧
      wfInputsList (setInputOptions inputs name vals2) = true ∧
      (setInputOptions inputs name vals2).isEmpty = false ∧
      attrOptsArr (setAttrOptions i.attrs vals2) = some vals2 ∧
      attrType (setAttrOptions i.attrs vals2) = attrType i.attrs := by
  obtain ⟨preI, postI, hsplit, hppre, hname⟩ := inputs_decomp inputs name i hfind
  have hwfall : inputs.all wfInput = true := (Bool.and_eq_true_iff.mp hall).1
  have hndi : (inputs.map iname).Nodup := by
    have := (Bool.and_eq_true_iff.mp hall).2
    simpa using this
  have hmem : i ∈ inputs := by
    rw [hsplit]
    exact List.mem_append_right _ (List.mem_cons_self _ _)
  have hwi : wfInput i = true := List.all_eq_true.mp hwfall i hmem
  obtain ⟨hwf2, hmap2, hopts2, htype2⟩ := wfInput_set i hwi vals vals2 hopts hne2 hv2
  have hset : setInputOptions inputs name vals2 =
      preI ++ (⟨i.rawName, setAttrOptions i.attrs vals2⟩ : MInput) :: postI := by
    rw [hsplit]
    exact setInputOptions_decomp postI i name vals2 hname preI hppre
  have hiname2 : iname (⟨i.rawName, setAttrOptions i.attrs vals2⟩ : MInput) = iname i := rfl
  refine ⟨?_, ?_, ?_, hopts2, htype2⟩
  · rw [hset]
    unfold findInput
    apply find?_append_found
    · rw [hiname2, hname]
      exact beq_self_eq_true name
    · exact hppre
  · rw [hset]
    unfold wfInputsList
    rw [Bool.and_eq_true_iff]
    constructor
    · apply List.all_eq_true.mpr
      intro x hx
      rcases List.mem_append.mp hx with h1 | h2
      · exact List.all_eq_true.mp hwfall x (by rw [hsplit]; exact List.mem_append_left _ h1)
      · rcases List.mem_cons.mp h2 with h3 | h4
        · subst h3; exact hwf2
        · refine List.all_eq_true.mp hwfall x ?_
          rw [hsplit]
          exact List.mem_append_right _ (List.mem_cons_of_mem _ h4)
    · have hmapeq : (preI ++ (⟨i.rawName, setAttrOptions i.attrs vals2⟩ : MInput) :: postI).map
          iname = inputs.map iname := by
        rw [hsplit, List.map_append, List.map_append, List.map_cons, List.map_cons,
          hiname2]
      rw [hmapeq]
      simpa using hndi
  · rw [hset]
    cases preI <;> rfl

theorem wfDoc_set (d : MDoc) (name : Str) (vals vals2 : List Str)
    (inputs : List MInput) (i : MInput)
    (hd : wfDoc d = true)
    (hin : wfInputs d = some inputs)
    (hfind : findInput inputs name = some i)
    (hopts : attrOptsArr i.attrs = some vals)
    (hne2 : vals2 ≠ []) (hv2 : ∀ v ∈ vals2, plainVal v = true) :
    wfDoc (setOptionsDoc d name vals2) = true := by
  cases d with
  | mk pre onb post =>
    cases onb with
    | none => simp [wfInputs] at hin
    | some o =>
      cases o with
      | mk opre owd =>
        cases owd with
        | none => simp [wfInputs] at hin
        | some w =>
          cases w with
          | mk winputs =>
            cases winputs with
            | none => simp [wfInputs] at hin
            | some l =>
              have hl : l = inputs := by simpa [wfInputs] using hin
              subst hl
              have hdoc2 : setOptionsDoc
                  (⟨pre, some ⟨opre, some ⟨some l⟩⟩, post⟩ : MDoc) name vals2 =
                  ⟨pre, some ⟨opre, some ⟨some (setInputOptions l name vals2)⟩⟩, post⟩ := by
                simp [setOptionsDoc]
              rw [hdoc2]
              unfold wfDoc at hd ⊢
              simp only at hd ⊢
              rw [Bool.and_eq_true_iff] at hd ⊢
              obtain ⟨hd1, hd2⟩ := hd
              refine ⟨?_, hd2⟩
              rw [Bool.and_eq_true_iff] at hd1 ⊢
              obtain ⟨hd11, hd12⟩ := hd1
              refine ⟨hd11, ?_⟩
              unfold wfOn at hd12 ⊢
              rw [Bool.and_eq_true_iff] at hd12 ⊢
              obtain ⟨hon1, hon2⟩ := hd12
              refine ⟨hon1, ?_⟩
              unfold wfWd at hon2 ⊢
              have hall : wfInputsList l = true := hon2
              exact (set_lookup l i name vals vals2 hall hfind hopts hne2 hv2).2.1

/-! ### Claims C10, C7, C6 -/

theorem structuralFinish_nil (content inputName : Str) (opts : List Str) (doc : MDoc) :
    structuralFinish content inputName opts [] doc = renderDoc doc := rfl

theorem isEmpty_false_of_ne_nil {α : Type} (l : List α) (h : l ≠ []) :
    l.isEmpty = false := by
  cases l with
  | nil => exact absurd rfl h
  | cons a as => rfl

/-- C10: on every document whose parse reports no errors, the current
revision of modifyWorkflowContent returns exactly the same text as the
earlier revision without the fallback branches: both added branches are
conditioned on a non-empty error list, and the error list of a document is
fixed at parse time. -/
theorem revision_equivalence (content : Str) (r : Req)
    (h : yamlErrors content = []) :
    modifyWorkflowContentV1 content r = modifyWorkflowContent content r := by
  simp only [modifyWorkflowContent, modifyWorkflowContentV1, h, structuralFinish_nil,
    List.isEmpty_nil, Bool.not_true, Bool.false_eq_true, if_false]

theorem revision_equivalence_witness :
    yamlErrors ("on:\n  a: 1".data) = [] ∧
    modifyWorkflowContentV1 ("on:\n  a: 1".data)
        ⟨JsAction.add, "env".data, "x".data, none⟩ =
      modifyWorkflowContent ("on:\n  a: 1".data)
        ⟨JsAction.add, "env".data, "x".data, none⟩ :=
  ⟨by decide, revision_equivalence ("on:\n  a: 1".data)
    ⟨JsAction.add, "env".data, "x".data, none⟩ (by decide)⟩

/-- C7: when the parser reports document-level errors, modifyWorkflowContent
returns exactly the result of modifyWithFallback on the same request and
never a serialization of the parsed tree; and the defensive re-check before
stringifying (structuralFinish, the code of lines 407-414) returns exactly
the regex replacement of the mutated currentOptions whenever the document
error list it re-reads is non-empty.  In the embedding the error list is
attached at parse time and never changed by the mutation, as with the yaml
library, so the re-check branch is defensive only. -/
theorem parse_error_fallback :
    (∀ (content : Str) (r : Req), yamlErrors content ≠ [] →
      modifyWorkflowContent content r = modifyWithFallback content r) ∧
    (∀ (content inputName : Str) (opts errs : List Str) (doc : MDoc), errs ≠ [] →
      structuralFinish content inputName opts errs doc =
        replaceOptionsWithRegex content inputName opts) := by
  constructor
  · intro content r h
    unfold modifyWorkflowContent
    rw [isEmpty_false_of_ne_nil _ h]
    rfl
  · intro content inputName opts errs doc h
    unfold structuralFinish
    rw [isEmpty_false_of_ne_nil _ h]
    rfl

theorem parse_error_fallback_witness :
    yamlErrors ("on:\n\ta: 1".data) ≠ [] ∧
    modifyWorkflowContent ("on:\n\ta: 1".data)
        ⟨JsAction.add, "env".data, "x".data, none⟩ =
      modifyWithFallback ("on:\n\ta: 1".data)
        ⟨JsAction.add, "env".data, "x".data, none⟩ ∧
    structuralFinish ("a".data) ("env".data) ["x".data] ["e".data]
        ⟨[], none, []⟩ =
      replaceOptionsWithRegex ("a".data) ("env".data) ["x".data] := by
  refine ⟨by decide, ?_, ?_⟩
  · exact parse_error_fallback.1 ("on:\n\ta: 1".data)
      ⟨JsAction.add, "env".data, "x".data, none⟩ (by decide)
  · exact parse_error_fallback.2 ("a".data) ("env".data) ["x".data] ["e".data]
      ⟨[], none, []⟩ (by decide)

/-- The structural editor finds no eligible target for the named input. -/
def structEligible (d : MDoc) (name : Str) : Bool :=
  match wfInputs d with
  | none => false
  | some inputs =>
    if inputs.isEmpty then false
    else
      match findInput inputs name with
      | none => false
      | some input =>
        (attrType input.attrs == some ("choice".data)) &&
          !(attrOptsArr input.attrs).isNone

/-- On an ineligible target the structural editor returns its input
unchanged. -/
theorem modify_render_ineligible (d : MDoc) (r : Req) (hd : wfDoc d = true)
    (he : structEligible d r.inputName = false) :
    modifyWorkflowContent (renderDoc d) r = renderDoc d := by
  unfold modifyWorkflowContent
  rw [yamlErrors_render d hd]
  simp only [List.isEmpty_nil, Bool.not_true, Bool.false_eq_true, if_false]
  rw [parseModel_render d hd]
  unfold structEligible at he
  cases hin : wfInputs d with
  | none => simp [hin]
  | some inputs =>
    simp only [hin] at he
    simp only [hin]
    cases hie : inputs.isEmpty with
    | true => simp [hie]
    | false =>
      simp only [hie, Bool.false_eq_true, if_false] at he ⊢
      cases hf : findInput inputs r.inputName with
      | none => simp [hf]
      | some input =>
        simp only [hf] at he ⊢
        cases ht : (attrType input.attrs == some ("choice".data)) with
        | false => simp [ht]
        | true =>
          simp only [ht, Bool.true_and] at he
          have hnone : (attrOptsArr input.attrs).isNone = true := by
            revert he
            cases (attrOptsArr input.attrs).isNone <;> simp
          simp [ht, hnone]

theorem structEligible_inv (d : MDoc) (name : Str)
    (he : structEligible d name = true) :
    ∃ inputs i opts, wfInputs d = some inputs ∧ inputs.isEmpty = false ∧
      findInput inputs name = some i ∧
      attrType i.attrs = some ("choice".data) ∧
      attrOptsArr i.attrs = some opts := by
  unfold structEligible at he
  cases hin : wfInputs d with
  | none => rw [hin] at he; simp at he
  | some inputs =>
    simp only [hin] at he
    cases hie : inputs.isEmpty with
    | true => rw [hie] at he; simp at he
    | false =>
      simp only [hie, Bool.false_eq_true, if_false] at he
      cases hf : findInput inputs name with
      | none => rw [hf] at he; simp at he
      | some input =>
        simp only [hf] at he
        obtain ⟨h1, h2⟩ := Bool.and_eq_true_iff.mp he
        have ht : attrType input.attrs = some ("choice".data) := by simpa using h1
        cases ho : attrOptsArr input.attrs with
        | none => rw [ho] at h2; simp at h2
        | some opts =>
          exact ⟨inputs, input, opts, rfl, hie, hf, ht, ho⟩

/-- On an eligible target the structural editor runs the policy and either
returns its input unchanged or serializes the mutated document. -/
theorem modify_render_run (d : MDoc) (r : Req) (inputs : List MInput)
    (i : MInput) (opts : List Str) (hd : wfDoc d = true)
    (hin : wfInputs d = some inputs) (hie : inputs.isEmpty = false)
    (hf : findInput inputs r.inputName = some i)
    (ht : attrType i.attrs = some ("choice".data))
    (ho : attrOptsArr i.attrs = some opts) :
    modifyWorkflowContent (renderDoc d) r =
      (if (applyActionStructural r.action opts r.choiceValue r.newChoiceValue).2 then
        renderDoc (setOptionsDoc d r.inputName
          (applyActionStructural r.action opts r.choiceValue r.newChoiceValue).1)
      else renderDoc d) := by
  unfold modifyWorkflowContent
  rw [yamlErrors_render d hd]
  simp only [List.isEmpty_nil, Bool.not_true, Bool.false_eq_true, if_false]
  rw [parseModel_render d hd]
  simp only [hin, hie, Bool.false_eq_true, if_false, hf, ho, ht, Option.isNone_some,
    Bool.or_false, beq_self_eq_true, Bool.not_true, Option.getD_some,
    structuralFinish_nil]
  cases hm : (applyActionStructural r.action opts r.choiceValue r.newChoiceValue).2 with
  | true => simp [hm]
  | false => simp [hm]

/-- The option values an eligible input carries are well formed. -/
theorem opts_wf_of_lookup (i : MInput) (opts : List Str)
    (hwi : wfInput i = true) (ho : attrOptsArr i.attrs = some opts) :
    opts ≠ [] ∧ ∀ v ∈ opts, plainVal v = true := by
  obtain ⟨as, x, bs, he, -, hfx⟩ := findSome?_decomp _ i.attrs opts ho
  have hx : x = IAttr.opts opts := by
    cases x with
    | scalar k v => simp at hfx
    | nullAttr k => simp at hfx
    | opts vs =>
      simpa using congrArg (fun o => (Option.map IAttr.opts o).getD (IAttr.opts vs)) hfx
  subst hx
  have hattrs : i.attrs.all wfAttr = true :=
    (Bool.and_eq_true_iff.mp (Bool.and_eq_true_iff.mp hwi).1).2
  have hmem : IAttr.opts opts ∈ i.attrs := by
    rw [he]
    exact List.mem_append_right _ (List.mem_cons_self _ _)
  have hwa := List.all_eq_true.mp hattrs _ hmem
  have ha2 : ¬ opts = [] ∧ ∀ x ∈ opts, plainVal x = true := by
    simpa [wfAttr] using hwa
  exact ha2

theorem wfInput_of_find (inputs : List MInput) (name : Str) (i : MInput)
    (hall : wfInputsList inputs = true) (hf : findInput inputs name = some i) :
    wfInput i = true := by
  obtain ⟨preI, postI, hsplit, -, -⟩ := inputs_decomp inputs name i hf
  refine List.all_eq_true.mp (Bool.and_eq_true_iff.mp hall).1 i ?_
  rw [hsplit]
  exact List.mem_append_right _ (List.mem_cons_self _ _)

theorem wfInputsList_of_doc (d : MDoc) (inputs : List MInput)
    (hd : wfDoc d = true) (hin : wfInputs d = some inputs) :
    wfInputsList inputs = true := by
  cases d with
  | mk pre onb post =>
    cases onb with
    | none => simp [wfInputs] at hin
    | some o =>
      cases o with
      | mk opre owd =>
        cases owd with
        | none => simp [wfInputs] at hin
        | some w =>
          cases w with
          | mk winputs =>
            cases winputs with
            | none => simp [wfInputs] at hin
            | some l =>
              have hl : l = inputs := by simpa [wfInputs] using hin
              subst hl
              have h1 := (Bool.and_eq_true_iff.mp (Bool.and_eq_true_iff.mp
                (Bool.and_eq_true_iff.mp hd).1).2).2
              simpa [wfWd] using h1

/-! ### Claim C8 -/

/-- C8 counterexample: on a document the parser rejects (a tab-indented
line), the mutation runs through the fallback scanner; adding the value
quote-x-quote splices a quoted list item, whose quotes the next extraction
strips, so a second identical add appends again and the document keeps
growing: applying add twice differs from applying it once. -/
theorem add_twice_counterexample :
    modifyWorkflowContent
        (modifyWorkflowContent
          (("on:\n  workflow_dispatch:\n    inputs:\n      env:\n        type: choice\n        options:\n          - dev\njobs:\n\tx: 1").data)
          ⟨JsAction.add, "env".data, ['"', 'x', '"'], none⟩)
        ⟨JsAction.add, "env".data, ['"', 'x', '"'], none⟩ ≠
      modifyWorkflowContent
        (("on:\n  workflow_dispatch:\n    inputs:\n      env:\n        type: choice\n        options:\n          - dev\njobs:\n\tx: 1").data)
        ⟨JsAction.add, "env".data, ['"', 'x', '"'], none⟩ := by
  decide

/-- C8 (amended): applying add with the same value twice yields byte-for-byte
the same document as applying it once, for canonical well-formed documents
(clean parse) and plain scalar values; the counterexample forces the
exclusion of quote-bearing values reaching the fallback scanner on
documents with parse errors. -/
theorem add_twice_idempotent (d : MDoc) (r : Req) (hd : wfDoc d = true)
    (ha : r.action = JsAction.add) (hv : plainVal r.choiceValue = true) :
    modifyWorkflowContent (modifyWorkflowContent (renderDoc d) r) r =
      modifyWorkflowContent (renderDoc d) r := by
  by_cases he : structEligible d r.inputName = true
  · obtain ⟨inputs, i, opts, hin, hie, hf, ht, ho⟩ := structEligible_inv d r.inputName he
    have hrun := modify_render_run d r inputs i opts hd hin hie hf ht ho
    cases hm : (applyActionStructural r.action opts r.choiceValue r.newChoiceValue).2 with
    | false =>
      rw [hm] at hrun
      simp only [Bool.false_eq_true, if_false] at hrun
      rw [hrun]
      exact hrun
    | true =>
      have hnc : opts.contains r.choiceValue = false := by
        rw [ha] at hm
        unfold applyActionStructural at hm
        cases hc : opts.contains r.choiceValue with
        | true => rw [hc] at hm; simp at hm
        | false => rfl
      have hadd : applyActionStructural r.action opts r.choiceValue r.newChoiceValue =
          (opts ++ [r.choiceValue], true) := by
        rw [ha]
        unfold applyActionStructural
        rw [hnc]
        simp
      rw [hadd] at hrun
      simp only [if_true] at hrun
      have hall := wfInputsList_of_doc d inputs hd hin
      have hwi := wfInput_of_find inputs r.inputName i hall hf
      obtain ⟨hone, hoplain⟩ := opts_wf_of_lookup i opts hwi ho
      have hvne : (opts ++ [r.choiceValue]) ≠ [] := by simp
      have hvpl : ∀ v ∈ opts ++ [r.choiceValue], plainVal v = true := by
        intro v hvm
        rcases List.mem_append.mp hvm with h1 | h2
        · exact hoplain v h1
        · have hveq : v = r.choiceValue := by simpa using h2
          subst hveq
          exact hv
      have hd2 := wfDoc_set d r.inputName opts (opts ++ [r.choiceValue]) inputs i hd hin
        hf ho hvne hvpl
      obtain ⟨hf2, hall2, hie2, ho2, ht2⟩ := set_lookup inputs i r.inputName opts
        (opts ++ [r.choiceValue]) hall hf ho hvne hvpl
      have hin2 := (wfInputs_set d r.inputName (opts ++ [r.choiceValue]) inputs hin).1
      have hrun2 := modify_render_run (setOptionsDoc d r.inputName (opts ++ [r.choiceValue]))
        r (setInputOptions inputs r.inputName (opts ++ [r.choiceValue]))
        ⟨i.rawName, setAttrOptions i.attrs (opts ++ [r.choiceValue])⟩
        (opts ++ [r.choiceValue]) hd2 hin2 hie2 hf2 (by rw [ht2]; exact ht) ho2
      have hc2 : (opts ++ [r.choiceValue]).contains r.choiceValue = true :=
        List.elem_iff.mpr (List.mem_append_right _ (List.mem_cons_self _ _))
      have hres2 : applyActionStructural r.action (opts ++ [r.choiceValue])
          r.choiceValue r.newChoiceValue = (opts ++ [r.choiceValue], false) := by
        rw [ha]
        unfold applyActionStructural
        rw [hc2]
        simp
      rw [hres2] at hrun2
      simp only [Bool.false_eq_true, if_false] at hrun2
      rw [hrun, hrun2]
  · have hne : structEligible d r.inputName = false := by
      revert he
      cases structEligible d r.inputName <;> simp
    have h1 := modify_render_ineligible d r hd hne
    rw [h1]
    exact h1

theorem add_twice_idempotent_witness :
    wfDoc (⟨[], some ⟨[], some ⟨some [⟨"env".data,
        [IAttr.scalar ("type".data) ("choice".data),
         IAttr.opts ["dev".data]]⟩]⟩⟩, []⟩ : MDoc) = true ∧
    (⟨JsAction.add, "env".data, "x".data, none⟩ : Req).action = JsAction.add ∧
    plainVal ("x".data) = true ∧
    modifyWorkflowContent (modifyWorkflowContent
        (renderDoc (⟨[], some ⟨[], some ⟨some [⟨"env".data,
          [IAttr.scalar ("type".data) ("choice".data),
           IAttr.opts ["dev".data]]⟩]⟩⟩, []⟩ : MDoc))
        ⟨JsAction.add, "env".data, "x".data, none⟩)
        ⟨JsAction.add, "env".data, "x".data, none⟩ =
      modifyWorkflowContent
        (renderDoc (⟨[], some ⟨[], some ⟨some [⟨"env".data,
          [IAttr.scalar ("type".data) ("choice".data),
           IAttr.opts ["dev".data]]⟩]⟩⟩, []⟩ : MDoc))
        ⟨JsAction.add, "env".data, "x".data, none⟩ := by
  refine ⟨by decide, rfl, by decide, ?_⟩
  exact add_twice_idempotent _ ⟨JsAction.add, "env".data, "x".data, none⟩
    (by decide) rfl (by decide)

/-! ### updateWorkflowChoices (lines 243-304): the per-workflow loop

The remote store is modelled as a pair of functions: getContent answers a
fetch for a path (a 404 rejection, another error, a contentless directory
answer, or a file with decoded content and revision sha) and putContent
answers a commit of new content.  Base64 transport is modelled away: the
store carries decoded text.  A thrown error is the Except error case; the
caught 404s reproduce the catch block of the source.  The returned commit
log records every createOrUpdateFileContents call that succeeded, for the
observational part of the claim. -/

structure UpdateOptions where
  action : JsAction
  inputName : Str
  choiceValue : Str
  newChoiceValue : Option Str
  workflows : List Str
  commitMessage : Str
  branch : Str

inductive FetchRes
  | err404
  | errOther (m : Str)
  | noContent (sha : Str)
  | file (content sha : Str)

inductive CommitRes
  | ok
  | err404
  | errOther (m : Str)

structure Store where
  getContent : Str → FetchRes
  putContent : Str → Str → CommitRes

def wfPath (wf : Str) : Str := ".github/workflows/".data ++ wf

def reqOf (o : UpdateOptions) : Req :=
  ⟨o.action, o.inputName, o.choiceValue, o.newChoiceValue⟩

def updateLoop (st : Store) (o : UpdateOptions) :
    List Str → Except Str (List Str × List (Str × Str))
  | [] => Except.ok ([], [])
  | wf :: rest =>
    match st.getContent (wfPath wf) with
    | FetchRes.err404 => updateLoop st o rest
    | FetchRes.errOther m => Except.error m
    | FetchRes.noContent _ => updateLoop st o rest
    | FetchRes.file currentContent _ =>
      if modifyWorkflowContent currentContent (reqOf o) == currentContent then
        updateLoop st o rest
      else
        match st.putContent (wfPath wf) (modifyWorkflowContent currentContent (reqOf o)) with
        | CommitRes.ok =>
          match updateLoop st o rest with
          | Except.ok (u, log) =>
            Except.ok (wf :: u,
              (wfPath wf, modifyWorkflowContent currentContent (reqOf o)) :: log)
          | Except.error m => Except.error m
        | CommitRes.err404 => updateLoop st o rest
        | CommitRes.errOther m => Except.error m

def updateWorkflowChoices (st : Store) (o : UpdateOptions) :
    Except Str (List Str × Bool × List (Str × Str)) :=
  match updateLoop st o o.workflows with
  | Except.ok (u, log) => Except.ok (u, decide (u.length > 0), log)
  | Except.error m => Except.error m

theorem updateLoop_spec (st : Store) (o : UpdateOptions) :
    ∀ (ws u : List Str) (log : List (Str × Str)),
      updateLoop st o ws = Except.ok (u, log) →
      ∀ wf ∈ u, ∃ c sha, st.getContent (wfPath wf) = FetchRes.file c sha ∧
        modifyWorkflowContent c (reqOf o) ≠ c ∧
        (wfPath wf, modifyWorkflowContent c (reqOf o)) ∈ log := by
  intro ws
  induction ws with
  | nil =>
    intro u log h wf hwf
    have : u = [] := by
      have h2 : Except.ok (([] : List Str), ([] : List (Str × Str))) =
          Except.ok (u, log) := h
      simpa using (congrArg (fun e => match e with
        | Except.ok (p : List Str × List (Str × Str)) => p.1
        | Except.error _ => u) h2).symm
    subst this
    simp at hwf
  | cons w rest ih =>
    intro u log h wf hwf
    rw [updateLoop] at h
    split at h
    · exact ih u log h wf hwf
    · simp at h
    · exact ih u log h wf hwf
    · rename_i c sha hg
      split at h
      · exact ih u log h wf hwf
      · rename_i hb
        split at h
        · split at h
          · rename_i u2 log2 hrec
            have hu : u = w :: u2 ∧ log =
                (wfPath w, modifyWorkflowContent c (reqOf o)) :: log2 := by
              have h2 := h
              simp only [Except.ok.injEq, Prod.mk.injEq] at h2
              exact ⟨h2.1.symm, h2.2.symm⟩
            obtain ⟨hu1, hu2⟩ := hu
            subst hu1
            subst hu2
            rcases List.mem_cons.mp hwf with h1 | h2
            · subst h1
              refine ⟨c, sha, hg, ?_, List.mem_cons_self _ _⟩
              intro hee
              rw [hee] at hb
              simp at hb
            · obtain ⟨c2, sha2, hgc, hnee, hmem⟩ := ih u2 log2 hrec wf h2
              exact ⟨c2, sha2, hgc, hnee, List.mem_cons_of_mem _ hmem⟩
          · simp at h
        · exact ih u log h wf hwf
        · simp at h

/-- C9: whenever the update run returns a result, changesMade is true
exactly when updatedWorkflows is non-empty, and a workflow appears in
updatedWorkflows only when its newly rendered content differed from the
fetched content and a commit for its path with that content succeeded. -/
theorem update_result_spec (st : Store) (o : UpdateOptions) (u : List Str)
    (cm : Bool) (log : List (Str × Str))
    (h : updateWorkflowChoices st o = Except.ok (u, cm, log)) :
    (cm = true ↔ u ≠ []) ∧
    ∀ wf ∈ u, ∃ c sha, st.getContent (wfPath wf) = FetchRes.file c sha ∧
      modifyWorkflowContent c (reqOf o) ≠ c ∧
      (wfPath wf, modifyWorkflowContent c (reqOf o)) ∈ log := by
  unfold updateWorkflowChoices at h
  cases hrec : updateLoop st o o.workflows with
  | ok p =>
    cases p with
    | mk u2 log2 =>
      rw [hrec] at h
      have he : u2 = u ∧ decide (u2.length > 0) = cm ∧ log2 = log := by
        simpa using h
      obtain ⟨he1, he2, he3⟩ := he
      subst he1
      subst he3
      constructor
      · rw [← he2]
        constructor
        · intro hdec
          have := of_decide_eq_true hdec
          intro hne
          rw [hne] at this
          simp at this
        · intro hne
          apply decide_eq_true
          cases u2 with
          | nil => exact absurd rfl hne
          | cons a as => simp
      · exact updateLoop_spec st o o.workflows u2 log2 hrec
  | error m =>
    rw [hrec] at h
    simp at h

def wSample : Str := ("on:\n  workflow_dispatch:\n    inputs:\n      env:\n        type: choice\n        options:\n          - dev").data

def wModified : Str := ("on:\n  workflow_dispatch:\n    inputs:\n      env:\n        type: choice\n        options:\n          - dev\n          - test").data

def wStore : Store := ⟨fun _ => FetchRes.file wSample ("s").data, fun _ _ => CommitRes.ok⟩

def wOpts : UpdateOptions :=
  ⟨JsAction.add, ("env").data, ("test").data, none, [("deploy.yml").data], [], []⟩

theorem update_result_spec_witness :
    (true = true ↔ ([("deploy.yml").data] : List Str) ≠ []) ∧
    ∀ wf ∈ ([("deploy.yml").data] : List Str), ∃ c sha,
      wStore.getContent (wfPath wf) = FetchRes.file c sha ∧
      modifyWorkflowContent c (reqOf wOpts) ≠ c ∧
      (wfPath wf, modifyWorkflowContent c (reqOf wOpts)) ∈
        [(wfPath (("deploy.yml").data), wModified)] :=
  update_result_spec wStore wOpts [("deploy.yml").data] true
    [(wfPath (("deploy.yml").data), wModified)] (by rfl)

/-! ### Frame lemmas for the splice scan (C2) -/

theorem replaceLoop_pass_out (name : Str) (vals : List Str) :
    ∀ (pre rest : List Str) (ind : Str),
      (∀ l ∈ pre, startsL (trimL l) (name ++ [':']) = false) →
      replaceLoop name vals (pre ++ rest) false false ind =
        pre ++ replaceLoop name vals rest false false ind := by
  intro pre
  induction pre with
  | nil => intro rest ind _; rfl
  | cons a as ih =>
    intro rest ind h
    have ha := h a (List.mem_cons_self _ _)
    rw [List.cons_append, replaceLoop]
    simp only [ha, Bool.false_eq_true, false_and, if_false, List.cons_append, List.cons.injEq,
      true_and]
    exact ih rest ind (fun l hl => h l (List.mem_cons_of_mem _ hl))

theorem replaceLoop_pass_in (name : Str) (vals : List Str) (ind : Str) :
    ∀ (attrs rest : List Str),
      (∀ l ∈ attrs, startsL (trimL l) (name ++ [':']) = false ∧
        trimL l ≠ ("options:").data ∧
        (trimL l = [] ∨ ind.length < (leadWS l).length ∨ startsL (trimL l) ['-'] = true)) →
      replaceLoop name vals (attrs ++ rest) false true ind =
        attrs ++ replaceLoop name vals rest false true ind := by
  intro attrs
  induction attrs with
  | nil => intro rest _; rfl
  | cons a as ih =>
    intro rest h
    obtain ⟨ha1, ha2, ha3⟩ := h a (List.mem_cons_self _ _)
    have hstay : ¬ (trimL a ≠ [] ∧ (leadWS a).length ≤ ind.length ∧
        ¬ (startsL (trimL a) ['-'] = true)) := by
      rcases ha3 with h3 | h3 | h3
      · intro hc; exact hc.1 h3
      · intro hc; exact absurd hc.2.1 (Nat.not_le.mpr h3)
      · intro hc; exact hc.2.2 h3
    rw [List.cons_append, replaceLoop]
    simp only [ha1, Bool.false_eq_true, false_and, if_false, hstay, if_true, ha2, and_false,
      List.cons.injEq, true_and]
    exact congrArg (List.cons a) (ih rest (fun l hl => h l (List.mem_cons_of_mem _ hl)))

theorem replaceLoop_skip_items (name : Str) (vals : List Str) (inT : Bool) (ind : Str) :
    ∀ (items rest : List Str),
      (∀ l ∈ items, startsL (trimL l) ['-'] = true) →
      replaceLoop name vals (items ++ rest) true inT ind =
        replaceLoop name vals rest true inT ind := by
  intro items
  induction items with
  | nil => intro rest _; rfl
  | cons a as ih =>
    intro rest h
    have ha := h a (List.mem_cons_self _ _)
    rw [List.cons_append, replaceLoop]
    simp only [ha, and_true, true_and, if_true]
    exact ih rest (fun l hl => h l (List.mem_cons_of_mem _ hl))

/-- C2 counterexample: for the document with input env at indent 0 and a
second input region nested deeper, replacing the options of env also
replaces the options of region, because the scan never leaves the target
input on deeper-indented lines and replaces every later options: line it
meets while inside; the output therefore differs from the text in which
only the located options block of env was replaced. -/
theorem replace_frame_counterexample :
    replaceOptionsWithRegex
        (("env:\n  options:\n    - a\n  region:\n    options:\n      - b").data)
        (("env").data) [("x").data] =
      ("env:\n  options:\n    - x\n  region:\n    options:\n      - x").data ∧
    ("env:\n  options:\n    - x\n  region:\n    options:\n      - x").data ≠
      ("env:\n  options:\n    - x\n  region:\n    options:\n      - b").data := by
  constructor
  · decide
  · decide

/-- The frame of the splice scan: with the document decomposed into lines
never locating the name, the locating name line, deeper attribute lines,
the options: line, its dash items, and a closing tail, exactly the dash
items are replaced and every other line passes through. -/
theorem replaceOptions_segments (name : Str) (vals : List Str)
    (pre attrs items post : List Str) (nameLine optLine : Str)
    (h0 : ∀ l ∈ pre ++ (nameLine :: (attrs ++ (optLine :: (items ++ post)))), '\n' ∉ l)
    (hpre1 : ∀ l ∈ pre, startsL (trimL l) (name ++ [':']) = false)
    (hname : startsL (trimL nameLine) (name ++ [':']) = true)
    (hattrs : ∀ l ∈ attrs, startsL (trimL l) (name ++ [':']) = false ∧
      trimL l ≠ ("options:").data ∧
      (trimL l = [] ∨ (leadWS nameLine).length < (leadWS l).length ∨
        startsL (trimL l) ['-'] = true))
    (hopt1 : trimL optLine = ("options:").data)
    (hopt2 : startsL (trimL optLine) (name ++ [':']) = false)
    (hopt3 : (leadWS nameLine).length < (leadWS optLine).length)
    (hitems : ∀ l ∈ items, startsL (trimL l) ['-'] = true)
    (hpost : post = [] ∨ ∃ e p2, post = e :: p2 ∧ trimL e ≠ [] ∧
      (leadWS e).length ≤ (leadWS nameLine).length ∧ startsL (trimL e) ['-'] = false ∧
      startsL (trimL e) (name ++ [':']) = false ∧
      ∀ l ∈ p2, startsL (trimL l) (name ++ [':']) = false) :
    replaceOptionsWithRegex
        (joinNl (pre ++ (nameLine :: (attrs ++ (optLine :: (items ++ post)))))) name vals =
      joinNl (pre ++ (nameLine :: (attrs ++ (optLine ::
        ((vals.map (fun o => (leadWS optLine ++ [' ', ' ']) ++ '-' :: ' ' :: o)) ++ post))))) := by
  have hne : (pre ++ (nameLine :: (attrs ++ (optLine :: (items ++ post))))) ≠ [] := by simp
  unfold replaceOptionsWithRegex
  rw [splitNl_joinNl _ hne h0]
  refine congrArg joinNl ?_
  rw [replaceLoop_pass_out name vals pre (nameLine :: (attrs ++ (optLine :: (items ++ post))))
    [] hpre1]
  refine congrArg (fun t => pre ++ t) ?_
  rw [replaceLoop]
  simp only [Bool.false_eq_true, false_and, if_false]
  rw [if_pos hname]
  refine congrArg (List.cons nameLine) ?_
  rw [replaceLoop_pass_in name vals (leadWS nameLine) attrs
    (optLine :: (items ++ post)) hattrs]
  refine congrArg (fun t => attrs ++ t) ?_
  have hno : ¬ (trimL optLine ≠ [] ∧ (leadWS optLine).length ≤ (leadWS nameLine).length ∧
      ¬ (startsL (trimL optLine) ['-'] = true)) := by
    intro hc
    exact absurd hc.2.1 (Nat.not_le.mpr hopt3)
  rw [replaceLoop]
  simp only [Bool.false_eq_true, false_and, if_false, hopt2]
  rw [if_neg hno]
  rw [if_pos (And.intro (rfl : (true : Bool) = true) hopt1)]
  refine congrArg (List.cons optLine) ?_
  refine congrArg (fun t => List.map _ vals ++ t) ?_
  rw [replaceLoop_skip_items name vals true (leadWS nameLine) items post hitems]
  rcases hpost with hp | ⟨e, p2, hp, he1, he2, hdash, heloc, hp2⟩
  · subst hp
    rfl
  · subst hp
    rw [replaceLoop]
    simp only [hdash, and_false, if_false, heloc, Bool.false_eq_true, if_true]
    have hcond2 : trimL e ≠ [] ∧
        (leadWS e).length ≤ (leadWS nameLine).length ∧ ¬False := ⟨he1, he2, not_false⟩
    rw [if_pos hcond2]
    simp only [Bool.false_eq_true, false_and, if_false]
    refine congrArg (List.cons e) ?_
    exact replaceLoop_not_found name vals p2 (leadWS nameLine) hp2

/-- C2 (amended): the splice is the identity when the input name is never
located; and when the document decomposes as lines that never locate the
name, the locating name line, deeper attribute lines, the options: line,
its dash items, and a tail whose head closes the input block at an
indentation no deeper than the name line, then exactly the dash items are
replaced by the new option lines and every other line is passed through
byte-identically. -/
theorem replace_frame_spec (name : Str) (vals : List Str)
    (pre attrs items post : List Str) (nameLine optLine : Str)
    (h0 : ∀ l ∈ pre ++ (nameLine :: (attrs ++ (optLine :: (items ++ post)))), '\n' ∉ l)
    (hpre1 : ∀ l ∈ pre, startsL (trimL l) (name ++ [':']) = false)
    (hname : startsL (trimL nameLine) (name ++ [':']) = true)
    (hattrs : ∀ l ∈ attrs, startsL (trimL l) (name ++ [':']) = false ∧
      trimL l ≠ ("options:").data ∧
      (trimL l = [] ∨ (leadWS nameLine).length < (leadWS l).length ∨
        startsL (trimL l) ['-'] = true))
    (hopt1 : trimL optLine = ("options:").data)
    (hopt2 : startsL (trimL optLine) (name ++ [':']) = false)
    (hopt3 : (leadWS nameLine).length < (leadWS optLine).length)
    (hitems : ∀ l ∈ items, startsL (trimL l) ['-'] = true)
    (hpost : post = [] ∨ ∃ e p2, post = e :: p2 ∧ trimL e ≠ [] ∧
      (leadWS e).length ≤ (leadWS nameLine).length ∧ startsL (trimL e) ['-'] = false ∧
      startsL (trimL e) (name ++ [':']) = false ∧
      ∀ l ∈ p2, startsL (trimL l) (name ++ [':']) = false) :
    replaceOptionsWithRegex
        (joinNl (pre ++ (nameLine :: (attrs ++ (optLine :: (items ++ post)))))) name vals =
      joinNl (pre ++ (nameLine :: (attrs ++ (optLine ::
        ((vals.map (fun o => (leadWS optLine ++ [' ', ' ']) ++ '-' :: ' ' :: o)) ++ post))))) ∧
    ∀ c : Str, (∀ l ∈ splitNl c, startsL (trimL l) (name ++ [':']) = false) →
      replaceOptionsWithRegex c name vals = c :=
  ⟨replaceOptions_segments name vals pre attrs items post nameLine optLine h0 hpre1 hname
    hattrs hopt1 hopt2 hopt3 hitems hpost,
   fun c hc => replace_not_found_id c name vals hc⟩

theorem replace_frame_spec_witness :
    replaceOptionsWithRegex
        (joinNl ([("on:").data] ++ ((("  env:").data) :: ([("    type: choice").data] ++
          ((("    options:").data) :: ([("      - a").data] ++ [("jobs:").data]))))))
        (("env").data) [("b").data] =
      joinNl ([("on:").data] ++ ((("  env:").data) :: ([("    type: choice").data] ++
        ((("    options:").data) :: (([("b").data].map
          (fun o => (leadWS (("    options:").data) ++ [' ', ' ']) ++ '-' :: ' ' :: o)) ++
          [("jobs:").data]))))) ∧
    ∀ c : Str, (∀ l ∈ splitNl c, startsL (trimL l) ((("env").data) ++ [':']) = false) →
      replaceOptionsWithRegex c (("env").data) [("b").data] = c :=
  replace_frame_spec (("env").data) [("b").data] [("on:").data] [("    type: choice").data]
    [("      - a").data] [("jobs:").data] (("  env:").data) (("    options:").data)
    (by decide) (by decide) (by decide) (by decide) (by decide) (by decide) (by decide)
    (by decide)
    (Or.inr ⟨("jobs:").data, [], rfl, by decide, by decide, by decide, by decide,
      by decide⟩)

/-! ### Frame lemmas for the extraction scan (C1) -/

theorem extractLoop_pass_out (name : Str) :
    ∀ (pre rest : List Str) (inO : Bool) (ind oind : Str) (acc : List Str),
      (∀ l ∈ pre, startsL (trimL l) (name ++ [':']) = false) →
      extractLoop name (pre ++ rest) false inO ind oind acc =
        extractLoop name rest false inO ind oind acc := by
  intro pre
  induction pre with
  | nil => intro rest inO ind oind acc _; rfl
  | cons a as ih =>
    intro rest inO ind oind acc h
    have ha := h a (List.mem_cons_self _ _)
    rw [List.cons_append, extractLoop]
    simp only [ha, Bool.false_eq_true, if_false]
    exact ih rest inO ind oind acc (fun l hl => h l (List.mem_cons_of_mem _ hl))

theorem extractLoop_pass_attrs (name : Str) (ind : Str) :
    ∀ (attrs rest : List Str) (oind : Str) (acc : List Str),
      (∀ l ∈ attrs, startsL (trimL l) (name ++ [':']) = false ∧
        trimL l ≠ ("options:").data ∧
        (trimL l = [] ∨ ind.length < (leadWS l).length ∨
          startsL (trimL l) ['-'] = true)) →
      extractLoop name (attrs ++ rest) true false ind oind acc =
        extractLoop name rest true false ind oind acc := by
  intro attrs
  induction attrs with
  | nil => intro rest oind acc _; rfl
  | cons a as ih =>
    intro rest oind acc h
    obtain ⟨ha1, ha2, ha3⟩ := h a (List.mem_cons_self _ _)
    have hstay : ¬ (trimL a ≠ [] ∧ (leadWS a).length ≤ ind.length ∧
        ¬ (startsL (trimL a) ['-'] = true)) := by
      rcases ha3 with h3 | h3 | h3
      · intro hc; exact hc.1 h3
      · intro hc; exact absurd hc.2.1 (Nat.not_le.mpr h3)
      · intro hc; exact hc.2.2 h3
    rw [List.cons_append, extractLoop]
    simp only [ha1, Bool.false_eq_true, if_false, hstay, ha2, if_true]
    exact ih rest oind acc (fun l hl => h l (List.mem_cons_of_mem _ hl))

theorem extractLoop_collect (name : Str) (ind oind : Str) :
    ∀ (items rest : List Str) (acc : List Str),
      (∀ l ∈ items, startsL (trimL l) (name ++ [':']) = false ∧
        startsL (trimL l) ['-'] = true) →
      extractLoop name (items ++ rest) true true ind oind acc =
        extractLoop name rest true true ind oind
          (acc ++ items.map (fun l => stripEndQuotes (stripDashWs (trimL l)))) := by
  intro items
  induction items with
  | nil => intro rest acc _; simp
  | cons a as ih =>
    intro rest acc h
    obtain ⟨ha1, ha2⟩ := h a (List.mem_cons_self _ _)
    have hnopt : trimL a ≠ ("options:").data := by
      intro he
      rw [he] at ha2
      exact absurd ha2 (by decide)
    have hnd : ¬ ¬ (startsL (trimL a) ['-'] = true) := fun hc => hc ha2
    have hstay : ¬ (trimL a ≠ [] ∧ (leadWS a).length ≤ ind.length ∧
        ¬ (startsL (trimL a) ['-'] = true)) := fun hc => hnd hc.2.2
    have hstay2 : ¬ (trimL a ≠ [] ∧ ¬ (startsL (trimL a) ['-'] = true) ∧
        (leadWS a).length ≤ oind.length) := fun hc => hnd hc.2.1
    rw [List.cons_append, extractLoop]
    simp only [ha1, Bool.false_eq_true, if_false, hstay, hstay2, hnopt, ha2, if_true]
    rw [ih rest (acc ++ [stripEndQuotes (stripDashWs (trimL a))])
      (fun l hl => h l (List.mem_cons_of_mem _ hl))]
    simp

/-- The frame of the extraction scan: with the document decomposed into
lines never locating the name, the locating name line, deeper attribute
lines, the options: line, its dash items, and a closing tail, the scan
returns exactly the stripped dash items. -/
theorem extractOptions_segments (name : Str)
    (pre attrs items post : List Str) (nameLine optLine : Str)
    (h0 : ∀ l ∈ pre ++ (nameLine :: (attrs ++ (optLine :: (items ++ post)))), '\n' ∉ l)
    (hpre1 : ∀ l ∈ pre, startsL (trimL l) (name ++ [':']) = false)
    (hname : startsL (trimL nameLine) (name ++ [':']) = true)
    (hattrs : ∀ l ∈ attrs, startsL (trimL l) (name ++ [':']) = false ∧
      trimL l ≠ ("options:").data ∧
      (trimL l = [] ∨ (leadWS nameLine).length < (leadWS l).length ∨
        startsL (trimL l) ['-'] = true))
    (hopt1 : trimL optLine = ("options:").data)
    (hopt2 : startsL (trimL optLine) (name ++ [':']) = false)
    (hopt3 : (leadWS nameLine).length < (leadWS optLine).length)
    (hitems : ∀ l ∈ items, startsL (trimL l) (name ++ [':']) = false ∧
      startsL (trimL l) ['-'] = true)
    (hpost : post = [] ∨ ∃ e p2, post = e :: p2 ∧ trimL e ≠ [] ∧
      (leadWS e).length ≤ (leadWS nameLine).length ∧
      startsL (trimL e) ['-'] = false ∧
      startsL (trimL e) (name ++ [':']) = false) :
    extractOptionsWithRegex
        (joinNl (pre ++ (nameLine :: (attrs ++ (optLine :: (items ++ post)))))) name =
      items.map (fun l => stripEndQuotes (stripDashWs (trimL l))) := by
  have hne : (pre ++ (nameLine :: (attrs ++ (optLine :: (items ++ post))))) ≠ [] := by simp
  unfold extractOptionsWithRegex
  rw [splitNl_joinNl _ hne h0]
  rw [extractLoop_pass_out name pre (nameLine :: (attrs ++ (optLine :: (items ++ post))))
    false [] [] [] hpre1]
  rw [extractLoop]
  simp only [Bool.false_eq_true, if_false]
  rw [if_pos hname]
  rw [extractLoop_pass_attrs name (leadWS nameLine) attrs (optLine :: (items ++ post))
    [] [] hattrs]
  have hno : ¬ (trimL optLine ≠ [] ∧ (leadWS optLine).length ≤ (leadWS nameLine).length ∧
      ¬ (startsL (trimL optLine) ['-'] = true)) := by
    intro hc
    exact absurd hc.2.1 (Nat.not_le.mpr hopt3)
  rw [extractLoop]
  simp only [hopt2, Bool.false_eq_true, if_false, if_true]
  rw [if_neg hno]
  rw [if_pos hopt1]
  rw [extractLoop_collect name (leadWS nameLine) (leadWS optLine) items post [] hitems]
  rw [List.nil_append]
  rcases hpost with hp | ⟨e, p2, hp, he1, he2, hdash, heloc⟩
  · subst hp
    rfl
  · subst hp
    have hcond : trimL e ≠ [] ∧ (leadWS e).length ≤ (leadWS nameLine).length ∧
        ¬ (startsL (trimL e) ['-'] = true) := by
      refine ⟨he1, he2, ?_⟩
      rw [hdash]
      exact Bool.false_ne_true
    rw [extractLoop]
    simp only [heloc, Bool.false_eq_true, if_false, if_true]
    rw [if_pos hcond]

/-- C1 counterexample: for the error-free document whose input key is
written with double quotes, the structural editor parses the key to env and
appends the new choice, while the forced fallback scan looks for a line
whose trimmed text starts with the unquoted name followed by a colon, never
locates the quoted key line, and returns the text unchanged: the two option
sequences differ. -/
theorem structural_fallback_counterexample :
    yamlErrors (("on:\n  workflow_dispatch:\n    inputs:\n      \"env\":\n        type: choice\n        options:\n          - dev").data) = [] ∧
    docOptions (modifyWorkflowContent
        (("on:\n  workflow_dispatch:\n    inputs:\n      \"env\":\n        type: choice\n        options:\n          - dev").data)
        ⟨JsAction.add, ("env").data, ("x").data, none⟩) (("env").data) =
      [("dev").data, ("x").data] ∧
    docOptions (modifyWithFallback
        (("on:\n  workflow_dispatch:\n    inputs:\n      \"env\":\n        type: choice\n        options:\n          - dev").data)
        ⟨JsAction.add, ("env").data, ("x").data, none⟩) (("env").data) =
      [("dev").data] := by
  refine ⟨by decide, by decide, by decide⟩

/-! ### Character and line helpers for the agreement theorem (C1) -/

theorem startsL_refl (s : Str) : startsL s s = true :=
  List.isPrefixOf_iff_prefix.mpr (List.prefix_refl s)

theorem stripEndQuotes_plain (v : Str) (h : plainVal v = true) :
    stripEndQuotes v = v := by
  obtain ⟨c, r, hs, hc, hall⟩ := plainVal_shape v h
  subst hs
  have hc1 : c ≠ quoteCh := by
    intro he
    subst he
    exact absurd hc (by decide)
  have hc2 : c ≠ '"' := by
    intro he
    subst he
    exact absurd hc (by decide)
  unfold stripEndQuotes
  simp only [hc1, hc2, decide_False, Bool.or_self, Bool.false_eq_true, if_false]
  cases hg : (c :: r : Str).getLast? with
  | none => simp at hg
  | some d =>
    have hd : isPlainChar d = true := hall d (List.mem_of_mem_getLast? hg)
    have hd1 : d ≠ quoteCh := by
      intro he
      subst he
      exact absurd hd (by decide)
    have hd2 : d ≠ '"' := by
      intro he
      subst he
      exact absurd hd (by decide)
    simp only [hd1, hd2, decide_False, Bool.or_self, Bool.false_eq_true, if_false]

theorem stripDash_item (v : Str) (h : plainVal v = true) :
    stripDashWs ('-' :: ' ' :: v) = v := by
  obtain ⟨c, r, hs, hc, -⟩ := plainVal_shape v h
  subst hs
  show List.dropWhile isWsChar (' ' :: c :: r) = c :: r
  rw [List.dropWhile_cons, List.dropWhile_cons]
  have hns : isWsChar c = false := plainChar_not_ws c (alphanum_plain c hc)
  have hsp : isWsChar ' ' = true := by decide
  simp only [hsp, if_true, hns, Bool.false_eq_true, if_false]

theorem item_dash (v : Str) : startsL ('-' :: ' ' :: v) ['-'] = true := by
  show List.isPrefixOf ['-'] ('-' :: ' ' :: v) = true
  simp [List.isPrefixOf]

theorem rawKey_colon_not_dash (k : Str) (hk : rawKeyOk k = true) :
    startsL (k ++ [':']) ['-'] = false := by
  rcases Bool.or_eq_true_iff.mp hk with hp | hq
  · obtain ⟨c, r, hs, hc, -⟩ := plainVal_shape k hp
    subst hs
    have hne : c ≠ '-' := by
      intro he
      subst he
      exact absurd hc (by decide)
    show List.isPrefixOf ['-'] ((c :: r) ++ [':']) = false
    simp [List.isPrefixOf, hne, Ne.symm hne]
  · have hh : (k.head? == some '"') = true :=
      (Bool.and_eq_true_iff.mp (Bool.and_eq_true_iff.mp
        (Bool.and_eq_true_iff.mp hq).1).1).2
    have hh2 : k.head? = some '"' := by simpa using hh
    cases k with
    | nil => simp at hh2
    | cons c r =>
      have he0 : c = '"' := by simpa using hh2
      subst he0
      show List.isPrefixOf ['-'] (('"' :: r) ++ [':']) = false
      simp [List.isPrefixOf]

theorem plain_append_not_dash (k rest : Str) (hk : plainVal k = true) :
    startsL (k ++ rest) ['-'] = false := by
  obtain ⟨c, r, hs, hc, -⟩ := plainVal_shape k hk
  subst hs
  have hne : c ≠ '-' := by
    intro he
    subst he
    exact absurd hc (by decide)
  show List.isPrefixOf ['-'] ((c :: r) ++ rest) = false
  simp [List.isPrefixOf, hne, Ne.symm hne]

theorem scalar_trim_ne_options (k v : Str) :
    k ++ ':' :: ' ' :: v ≠ ("options:").data := by
  intro he
  have hm : ' ' ∈ k ++ ':' :: ' ' :: v :=
    List.mem_append_right _ (List.mem_cons_of_mem _ (List.mem_cons_self _ _))
  rw [he] at hm
  exact absurd hm (by decide)

theorem key_colon_ne_options (k : Str) (h : k ≠ ("options").data) :
    k ++ [':'] ≠ ("options:").data := by
  intro he
  apply h
  have h2 : (k ++ [':']).dropLast = (("options").data ++ [':']).dropLast := by
    rw [he]
    rfl
  rwa [List.dropLast_concat, List.dropLast_concat] at h2

theorem countP_le_one_split {α : Type} (p : α → Bool) (A B : List α) (x : α)
    (hx : p x = true) (h : (A ++ x :: B).countP p ≤ 1) :
    (∀ l ∈ A, p l = false) ∧ (∀ l ∈ B, p l = false) := by
  rw [List.countP_append, List.countP_cons, hx] at h
  have h2 : A.countP p + (B.countP p + 1) ≤ 1 := by simpa using h
  have hA : A.countP p = 0 := by omega
  have hB : B.countP p = 0 := by omega
  constructor
  · intro l hl
    have := List.countP_eq_zero.mp hA l hl
    revert this
    cases p l <;> simp
  · intro l hl
    have := List.countP_eq_zero.mp hB l hl
    revert this
    cases p l <;> simp

/-- The rendered lines of a document around a chosen input's options
attribute. -/
theorem render_decomp (dpre opre dpost : List Str)
    (preI postI : List MInput) (i : MInput) (aPre aPost : List IAttr) (opts : List Str)
    (hattrs : i.attrs = aPre ++ IAttr.opts opts :: aPost) :
    renderLines (⟨dpre, some ⟨opre, some ⟨some (preI ++ i :: postI)⟩⟩, dpost⟩ : MDoc) =
      (dpre ++ ("on:").data :: (opre ++ (spaces 2 ++ ("workflow_dispatch:").data) ::
        (spaces 4 ++ ("inputs:").data) :: preI.flatMap renderInput)) ++
      ((spaces 6 ++ i.rawName ++ [':']) :: ((aPre.flatMap renderAttr) ++
        ((spaces 8 ++ ("options:").data) ::
          ((opts.map (fun v => spaces 10 ++ '-' :: ' ' :: v)) ++
            ((aPost.flatMap renderAttr) ++
              (postI.flatMap renderInput ++ dpost)))))) := by
  simp [renderLines, renderOn, renderWd, renderInput, renderAttr, hattrs,
    List.flatMap_append, List.append_assoc]

/-- Closing a target input block: from any skipping state, a non-dash
non-blank line at an indentation no deeper than the input key leaves the
block and the remaining lines pass through. -/
theorem replaceLoop_close_post (name : Str) (vals : List Str) (sk : Bool) (ind : Str)
    (post : List Str)
    (hpost : post = [] ∨ ∃ e p2, post = e :: p2 ∧ trimL e ≠ [] ∧
      (leadWS e).length ≤ ind.length ∧ startsL (trimL e) ['-'] = false ∧
      startsL (trimL e) (name ++ [':']) = false ∧
      ∀ l ∈ p2, startsL (trimL l) (name ++ [':']) = false) :
    replaceLoop name vals post sk true ind = post := by
  rcases hpost with hp | ⟨e, p2, hp, he1, he2, hdash, heloc, hp2⟩
  · subst hp
    rfl
  · subst hp
    rw [replaceLoop]
    simp only [hdash, Bool.false_eq_true, and_false, if_false, heloc, if_true, false_and]
    have hcond2 : trimL e ≠ [] ∧
        (leadWS e).length ≤ ind.length ∧ ¬False := ⟨he1, he2, not_false⟩
    rw [if_pos hcond2]
    simp only [Bool.false_eq_true, false_and, if_false]
    refine congrArg (List.cons e) ?_
    exact replaceLoop_not_found name vals p2 ind hp2

/-- The frame of the splice scan with attribute lines written after the
options block: exactly the dash items are replaced, the deeper attribute
lines after them pass through inside the block, and the closing tail
passes through outside it. -/
theorem replaceOptions_segments2 (name : Str) (vals : List Str)
    (pre attrs items attrs2 post : List Str) (nameLine optLine : Str)
    (h0 : ∀ l ∈ pre ++ (nameLine :: (attrs ++ (optLine ::
      (items ++ (attrs2 ++ post))))), '\n' ∉ l)
    (hpre1 : ∀ l ∈ pre, startsL (trimL l) (name ++ [':']) = false)
    (hname : startsL (trimL nameLine) (name ++ [':']) = true)
    (hattrs : ∀ l ∈ attrs, startsL (trimL l) (name ++ [':']) = false ∧
      trimL l ≠ ("options:").data ∧
      (trimL l = [] ∨ (leadWS nameLine).length < (leadWS l).length ∨
        startsL (trimL l) ['-'] = true))
    (hopt1 : trimL optLine = ("options:").data)
    (hopt2 : startsL (trimL optLine) (name ++ [':']) = false)
    (hopt3 : (leadWS nameLine).length < (leadWS optLine).length)
    (hitems : ∀ l ∈ items, startsL (trimL l) ['-'] = true)
    (hattrs2 : ∀ l ∈ attrs2, startsL (trimL l) (name ++ [':']) = false ∧
      trimL l ≠ ("options:").data ∧ startsL (trimL l) ['-'] = false ∧
      (trimL l = [] ∨ (leadWS nameLine).length < (leadWS l).length))
    (hpost : post = [] ∨ ∃ e p2, post = e :: p2 ∧ trimL e ≠ [] ∧
      (leadWS e).length ≤ (leadWS nameLine).length ∧ startsL (trimL e) ['-'] = false ∧
      startsL (trimL e) (name ++ [':']) = false ∧
      ∀ l ∈ p2, startsL (trimL l) (name ++ [':']) = false) :
    replaceOptionsWithRegex
        (joinNl (pre ++ (nameLine :: (attrs ++ (optLine ::
          (items ++ (attrs2 ++ post))))))) name vals =
      joinNl (pre ++ (nameLine :: (attrs ++ (optLine ::
        ((vals.map (fun o => (leadWS optLine ++ [' ', ' ']) ++ '-' :: ' ' :: o)) ++
          (attrs2 ++ post)))))) := by
  have hne : (pre ++ (nameLine :: (attrs ++ (optLine ::
      (items ++ (attrs2 ++ post)))))) ≠ [] := by simp
  unfold replaceOptionsWithRegex
  rw [splitNl_joinNl _ hne h0]
  refine congrArg joinNl ?_
  rw [replaceLoop_pass_out name vals pre
    (nameLine :: (attrs ++ (optLine :: (items ++ (attrs2 ++ post))))) [] hpre1]
  refine congrArg (fun t => pre ++ t) ?_
  rw [replaceLoop]
  simp only [Bool.false_eq_true, false_and, if_false]
  rw [if_pos hname]
  refine congrArg (List.cons nameLine) ?_
  rw [replaceLoop_pass_in name vals (leadWS nameLine) attrs
    (optLine :: (items ++ (attrs2 ++ post))) hattrs]
  refine congrArg (fun t => attrs ++ t) ?_
  have hno : ¬ (trimL optLine ≠ [] ∧ (leadWS optLine).length ≤ (leadWS nameLine).length ∧
      ¬ (startsL (trimL optLine) ['-'] = true)) := by
    intro hc
    exact absurd hc.2.1 (Nat.not_le.mpr hopt3)
  rw [replaceLoop]
  simp only [Bool.false_eq_true, false_and, if_false, hopt2]
  rw [if_neg hno]
  rw [if_pos (And.intro (rfl : (true : Bool) = true) hopt1)]
  refine congrArg (List.cons optLine) ?_
  refine congrArg (fun t => List.map _ vals ++ t) ?_
  rw [replaceLoop_skip_items name vals true (leadWS nameLine) items (attrs2 ++ post) hitems]
  rcases attrs2 with _ | ⟨a2, rest2⟩
  · exact replaceLoop_close_post name vals true (leadWS nameLine) post hpost
  · obtain ⟨hb1, hb2, hb3, hb4⟩ := hattrs2 a2 (List.mem_cons_self _ _)
    rw [List.cons_append]
    rw [replaceLoop]
    simp only [hb3, Bool.false_eq_true, and_false, if_false, hb1, if_true]
    have hstay2 : ¬ (trimL a2 ≠ [] ∧
        (leadWS a2).length ≤ (leadWS nameLine).length ∧ ¬False) := by
      rcases hb4 with h4 | h4
      · intro hc
        exact hc.1 h4
      · intro hc
        exact absurd hc.2.1 (Nat.not_le.mpr h4)
    rw [if_neg hstay2]
    have hnopt2 : ¬ ((true : Bool) = true ∧ trimL a2 = ("options:").data) :=
      fun hc => hb2 hc.2
    rw [if_neg hnopt2]
    refine congrArg (List.cons a2) ?_
    rw [replaceLoop_pass_in name vals (leadWS nameLine) rest2 post ?_]
    · refine congrArg (fun t => rest2 ++ t) ?_
      exact replaceLoop_close_post name vals false (leadWS nameLine) post hpost
    · intro l hl
      obtain ⟨hc1, hc2, hc3, hc4⟩ := hattrs2 l (List.mem_cons_of_mem _ hl)
      refine ⟨hc1, hc2, ?_⟩
      rcases hc4 with h4 | h4
      · exact Or.inl h4
      · exact Or.inr (Or.inl h4)

/-- The frame of the extraction scan, with the closing line allowed at any
indentation that ends the options region: the scan breaks there either by
leaving the input block or by leaving the options block. -/
theorem extractOptions_segments2 (name : Str)
    (pre attrs items post : List Str) (nameLine optLine : Str)
    (h0 : ∀ l ∈ pre ++ (nameLine :: (attrs ++ (optLine :: (items ++ post)))), '\n' ∉ l)
    (hpre1 : ∀ l ∈ pre, startsL (trimL l) (name ++ [':']) = false)
    (hname : startsL (trimL nameLine) (name ++ [':']) = true)
    (hattrs : ∀ l ∈ attrs, startsL (trimL l) (name ++ [':']) = false ∧
      trimL l ≠ ("options:").data ∧
      (trimL l = [] ∨ (leadWS nameLine).length < (leadWS l).length ∨
        startsL (trimL l) ['-'] = true))
    (hopt1 : trimL optLine = ("options:").data)
    (hopt2 : startsL (trimL optLine) (name ++ [':']) = false)
    (hopt3 : (leadWS nameLine).length < (leadWS optLine).length)
    (hitems : ∀ l ∈ items, startsL (trimL l) (name ++ [':']) = false ∧
      startsL (trimL l) ['-'] = true)
    (hpost : post = [] ∨ ∃ e p2, post = e :: p2 ∧ trimL e ≠ [] ∧
      startsL (trimL e) ['-'] = false ∧
      startsL (trimL e) (name ++ [':']) = false ∧
      ((leadWS e).length ≤ (leadWS nameLine).length ∨
        ((leadWS e).length ≤ (leadWS optLine).length ∧
          trimL e ≠ ("options:").data))) :
    extractOptionsWithRegex
        (joinNl (pre ++ (nameLine :: (attrs ++ (optLine :: (items ++ post)))))) name =
      items.map (fun l => stripEndQuotes (stripDashWs (trimL l))) := by
  have hne : (pre ++ (nameLine :: (attrs ++ (optLine :: (items ++ post))))) ≠ [] := by simp
  unfold extractOptionsWithRegex
  rw [splitNl_joinNl _ hne h0]
  rw [extractLoop_pass_out name pre (nameLine :: (attrs ++ (optLine :: (items ++ post))))
    false [] [] [] hpre1]
  rw [extractLoop]
  simp only [Bool.false_eq_true, if_false]
  rw [if_pos hname]
  rw [extractLoop_pass_attrs name (leadWS nameLine) attrs (optLine :: (items ++ post))
    [] [] hattrs]
  have hno : ¬ (trimL optLine ≠ [] ∧ (leadWS optLine).length ≤ (leadWS nameLine).length ∧
      ¬ (startsL (trimL optLine) ['-'] = true)) := by
    intro hc
    exact absurd hc.2.1 (Nat.not_le.mpr hopt3)
  rw [extractLoop]
  simp only [hopt2, Bool.false_eq_true, if_false, if_true]
  rw [if_neg hno]
  rw [if_pos hopt1]
  rw [extractLoop_collect name (leadWS nameLine) (leadWS optLine) items post [] hitems]
  rw [List.nil_append]
  rcases hpost with hp | ⟨e, p2, hp, he1, hdash, heloc, hind⟩
  · subst hp
    rfl
  · subst hp
    rw [extractLoop]
    simp only [heloc, Bool.false_eq_true, if_false, if_true]
    rcases hind with hle | ⟨hle2, hneopt⟩
    · have hcond : trimL e ≠ [] ∧ (leadWS e).length ≤ (leadWS nameLine).length ∧
          ¬ (startsL (trimL e) ['-'] = true) := by
        refine ⟨he1, hle, ?_⟩
        rw [hdash]
        exact Bool.false_ne_true
      rw [if_pos hcond]
    · by_cases hc1 : trimL e ≠ [] ∧ (leadWS e).length ≤ (leadWS nameLine).length ∧
          ¬ (startsL (trimL e) ['-'] = true)
      · rw [if_pos hc1]
      · rw [if_neg hc1]
        rw [if_neg hneopt]
        have hcond2 : trimL e ≠ [] ∧ ¬ (startsL (trimL e) ['-'] = true) ∧
            (leadWS e).length ≤ (leadWS optLine).length := by
          refine ⟨he1, ?_, hle2⟩
          rw [hdash]
          exact Bool.false_ne_true
        rw [if_pos hcond2]

/-- A line of the scan locates the input name: its trimmed text starts with
the name followed by a colon. -/
def locatesL (name l : Str) : Bool := startsL (trimL l) (name ++ [':'])

/-- C1 (amended): for a well-formed canonical document whose named input
has a plain (unquoted) key, a choice type and an options sequence, and
whose rendered lines locate the name at most once, the structural path and
the forced fallback path return byte-identical texts, and in particular
the same option sequence for the named input.  Quoted keys (located by the
parser, missed by the line scan) and documents whose lines locate the name
more than once break the agreement. -/
theorem structural_fallback_agreement (d : MDoc) (r : Req)
    (inputs : List MInput) (i : MInput) (opts : List Str)
    (hd : wfDoc d = true)
    (hin : wfInputs d = some inputs)
    (hf : findInput inputs r.inputName = some i)
    (ht : attrType i.attrs = some (("choice").data))
    (hopts : attrOptsArr i.attrs = some opts)
    (hplain : plainVal i.rawName = true)
    (huniq : (renderLines d).countP (locatesL r.inputName) ≤ 1) :
    modifyWorkflowContent (renderDoc d) r = modifyWithFallback (renderDoc d) r ∧
    docOptions (modifyWorkflowContent (renderDoc d) r) r.inputName =
      docOptions (modifyWithFallback (renderDoc d) r) r.inputName := by
  have hwl : wfInputsList inputs = true := wfInputsList_of_doc d inputs hd hin
  have hwi : wfInput i = true := wfInput_of_find inputs r.inputName i hwl hf
  have hnd : (i.attrs.map attrKey).Nodup := by
    have h2 := (Bool.and_eq_true_iff.mp hwi).2
    simpa using h2
  obtain ⟨aPre, aPost, hattrs, hkeysPre, hkeysPost⟩ := attrs_decomp i.attrs opts hopts hnd
  have hie : inputs.isEmpty = false := by
    cases inputs with
    | nil => simp [findInput] at hf
    | cons a as => rfl
  obtain ⟨preI, postI, hsplit, hppre, hiname⟩ := inputs_decomp inputs r.inputName i hf
  have hraw : i.rawName = r.inputName := by
    have h2 : iname i = i.rawName := stripPairQuotes_plain i.rawName hplain
    rw [← h2]
    exact hiname
  have hoptswf := opts_wf_of_lookup i opts hwi hopts
  have hkeyok : rawKeyOk i.rawName = true := plainVal_rawKeyOk i.rawName hplain
  have hattrall : i.attrs.all wfAttr = true :=
    (Bool.and_eq_true_iff.mp (Bool.and_eq_true_iff.mp hwi).1).2
  have hrun := modify_render_run d r inputs i opts hd hin hie hf ht hopts
  have hok := renderLines_lineOk d hd
  have hwfpost : wfPost d.post = true := (Bool.and_eq_true_iff.mp hd).2
  rcases d with ⟨dpre, _ | ⟨opre, _ | ⟨_ | l⟩⟩, dpost⟩
  · simp [wfInputs] at hin
  · simp [wfInputs] at hin
  · simp [wfInputs] at hin
  have hl : l = inputs := by simpa [wfInputs] using hin
  subst hl
  subst hsplit
  have hL := render_decomp dpre opre dpost preI postI i aPre aPost opts hattrs
  have hnmtrim : trimL (spaces 6 ++ i.rawName ++ [':']) = i.rawName ++ [':'] :=
    trimL_spaces_append 6 (i.rawName ++ [':']) (noWsEnds_key_colon i.rawName hkeyok)
  have hpname : locatesL r.inputName (spaces 6 ++ i.rawName ++ [':']) = true := by
    show startsL (trimL (spaces 6 ++ i.rawName ++ [':'])) (r.inputName ++ [':']) = true
    rw [hnmtrim, hraw]
    exact startsL_refl _
  rw [hL] at huniq
  obtain ⟨hpre0, hB⟩ := countP_le_one_split (locatesL r.inputName) _ _ _ hpname huniq
  have hBattr : ∀ l2 ∈ aPre.flatMap renderAttr, locatesL r.inputName l2 = false :=
    fun l2 hl2 => hB l2 (List.mem_append_left _ hl2)
  have hBopt : locatesL r.inputName (spaces 8 ++ ("options:").data) = false :=
    hB _ (List.mem_append_right _ (List.mem_cons_self _ _))
  have hBitems : ∀ l2 ∈ opts.map (fun v => spaces 10 ++ '-' :: ' ' :: v),
      locatesL r.inputName l2 = false :=
    fun l2 hl2 => hB l2 (List.mem_append_right _ (List.mem_cons_of_mem _
      (List.mem_append_left _ hl2)))
  have hBattr2 : ∀ l2 ∈ aPost.flatMap renderAttr, locatesL r.inputName l2 = false :=
    fun l2 hl2 => hB l2 (List.mem_append_right _ (List.mem_cons_of_mem _
      (List.mem_append_right _ (List.mem_append_left _ hl2))))
  have hBpost : ∀ l2 ∈ postI.flatMap renderInput ++ dpost,
      locatesL r.inputName l2 = false :=
    fun l2 hl2 => hB l2 (List.mem_append_right _ (List.mem_cons_of_mem _
      (List.mem_append_right _ (List.mem_append_right _ hl2))))
  have h0 : ∀ l2 ∈ (dpre ++ ("on:").data :: (opre ++
        (spaces 2 ++ ("workflow_dispatch:").data) ::
        (spaces 4 ++ ("inputs:").data) :: preI.flatMap renderInput)) ++
      ((spaces 6 ++ i.rawName ++ [':']) :: ((aPre.flatMap renderAttr) ++
        ((spaces 8 ++ ("options:").data) ::
          ((opts.map (fun v => spaces 10 ++ '-' :: ' ' :: v)) ++
            ((aPost.flatMap renderAttr) ++
              (postI.flatMap renderInput ++ dpost)))))), '\n' ∉ l2 := by
    intro l2 hl2
    refine (hok l2 ?_).1
    rw [hL]
    exact hl2
  have hlead6 : leadWS (spaces 6 ++ i.rawName ++ [':']) = spaces 6 :=
    lead_name_line _ hkeyok
  have hASeg : ∀ l2 ∈ aPre.flatMap renderAttr,
      startsL (trimL l2) (r.inputName ++ [':']) = false ∧
      trimL l2 ≠ ("options:").data ∧
      (trimL l2 = [] ∨
        (leadWS (spaces 6 ++ i.rawName ++ [':'])).length < (leadWS l2).length ∨
        startsL (trimL l2) ['-'] = true) := by
    intro l2 hl2
    obtain ⟨a, ha, hla⟩ := List.mem_flatMap.mp hl2
    have hamem : a ∈ i.attrs := by
      rw [hattrs]
      exact List.mem_append_left _ ha
    have hwa : wfAttr a = true := List.all_eq_true.mp hattrall a hamem
    cases a with
    | scalar k v =>
      obtain ⟨hk, hv⟩ := Bool.and_eq_true_iff.mp (by simpa [wfAttr] using hwa)
      have he : l2 = spaces 8 ++ k ++ ':' :: ' ' :: v := by simpa [renderAttr] using hla
      subst he
      have htr : trimL (spaces 8 ++ k ++ ':' :: ' ' :: v) = k ++ ':' :: ' ' :: v :=
        trimL_spaces_append 8 (k ++ ':' :: ' ' :: v) (noWsEnds_kv k v hk hv)
      refine ⟨hBattr _ hl2, ?_, Or.inr (Or.inl ?_)⟩
      · rw [htr]
        exact scalar_trim_ne_options k v
      · rw [hlead6, lead_scalar_line k v hk hv]
        simp [spaces]
    | nullAttr k =>
      have hk : plainVal k = true := by simpa [wfAttr] using hwa
      have he : l2 = spaces 8 ++ k ++ [':'] := by simpa [renderAttr] using hla
      subst he
      have htr : trimL (spaces 8 ++ k ++ [':']) = k ++ [':'] :=
        trimL_spaces_append 8 (k ++ [':']) (noWsEnds_key_colon k (plainVal_rawKeyOk k hk))
      refine ⟨hBattr _ hl2, ?_, Or.inr (Or.inl ?_)⟩
      · rw [htr]
        exact key_colon_ne_options k (hkeysPre (IAttr.nullAttr k) ha)
      · rw [hlead6, lead_null_line k (plainVal_rawKeyOk k hk)]
        simp [spaces]
    | opts vs =>
      exact absurd rfl (hkeysPre (IAttr.opts vs) ha)
  have hA2Seg : ∀ l2 ∈ aPost.flatMap renderAttr,
      startsL (trimL l2) (r.inputName ++ [':']) = false ∧
      trimL l2 ≠ ("options:").data ∧
      startsL (trimL l2) ['-'] = false ∧
      (trimL l2 = [] ∨
        (leadWS (spaces 6 ++ i.rawName ++ [':'])).length < (leadWS l2).length) := by
    intro l2 hl2
    obtain ⟨a, ha, hla⟩ := List.mem_flatMap.mp hl2
    have hamem : a ∈ i.attrs := by
      rw [hattrs]
      exact List.mem_append_right _ (List.mem_cons_of_mem _ ha)
    have hwa : wfAttr a = true := List.all_eq_true.mp hattrall a hamem
    cases a with
    | scalar k v =>
      obtain ⟨hk, hv⟩ := Bool.and_eq_true_iff.mp (by simpa [wfAttr] using hwa)
      have he : l2 = spaces 8 ++ k ++ ':' :: ' ' :: v := by simpa [renderAttr] using hla
      subst he
      have htr : trimL (spaces 8 ++ k ++ ':' :: ' ' :: v) = k ++ ':' :: ' ' :: v :=
        trimL_spaces_append 8 (k ++ ':' :: ' ' :: v) (noWsEnds_kv k v hk hv)
      refine ⟨hBattr2 _ hl2, ?_, ?_, Or.inr ?_⟩
      · rw [htr]
        exact scalar_trim_ne_options k v
      · rw [htr]
        exact plain_append_not_dash k (':' :: ' ' :: v) hk
      · rw [hlead6, lead_scalar_line k v hk hv]
        simp [spaces]
    | nullAttr k =>
      have hk : plainVal k = true := by simpa [wfAttr] using hwa
      have he : l2 = spaces 8 ++ k ++ [':'] := by simpa [renderAttr] using hla
      subst he
      have htr : trimL (spaces 8 ++ k ++ [':']) = k ++ [':'] :=
        trimL_spaces_append 8 (k ++ [':']) (noWsEnds_key_colon k (plainVal_rawKeyOk k hk))
      refine ⟨hBattr2 _ hl2, ?_, ?_, Or.inr ?_⟩
      · rw [htr]
        exact key_colon_ne_options k (hkeysPost (IAttr.nullAttr k) ha)
      · rw [htr]
        exact plain_append_not_dash k [':'] hk
      · rw [hlead6, lead_null_line k (plainVal_rawKeyOk k hk)]
        simp [spaces]
    | opts vs =>
      exact absurd rfl (hkeysPost (IAttr.opts vs) ha)
  have hitemsR : ∀ l2 ∈ opts.map (fun v => spaces 10 ++ '-' :: ' ' :: v),
      startsL (trimL l2) ['-'] = true := by
    intro l2 hl2
    obtain ⟨v, hv, hlv⟩ := List.mem_map.mp hl2
    subst hlv
    have hpv := hoptswf.2 v hv
    rw [trimL_spaces_append 10 ('-' :: ' ' :: v) (noWsEnds_item v hpv)]
    exact item_dash v
  have hitemsE : ∀ l2 ∈ opts.map (fun v => spaces 10 ++ '-' :: ' ' :: v),
      startsL (trimL l2) (r.inputName ++ [':']) = false ∧
      startsL (trimL l2) ['-'] = true :=
    fun l2 hl2 => ⟨hBitems l2 hl2, hitemsR l2 hl2⟩
  have hopt1 : trimL (spaces 8 ++ ("options:").data) = ("options:").data := by decide
  have hopt3 : (leadWS (spaces 6 ++ i.rawName ++ [':'])).length <
      (leadWS (spaces 8 ++ ("options:").data)).length := by
    rw [hlead6]
    have h8 : leadWS (spaces 8 ++ ("options:").data) = spaces 8 := by decide
    rw [h8]
    simp [spaces]
  have hpostR : (postI.flatMap renderInput ++ dpost) = [] ∨
      ∃ e p2, (postI.flatMap renderInput ++ dpost) = e :: p2 ∧ trimL e ≠ [] ∧
        (leadWS e).length ≤ (leadWS (spaces 6 ++ i.rawName ++ [':'])).length ∧
        startsL (trimL e) ['-'] = false ∧
        startsL (trimL e) (r.inputName ++ [':']) = false ∧
        ∀ l2 ∈ p2, startsL (trimL l2) (r.inputName ++ [':']) = false := by
    cases postI with
    | nil =>
      cases hdp : dpost with
      | nil =>
        subst hdp
        exact Or.inl rfl
      | cons e p2 =>
        subst hdp
        unfold wfPost at hwfpost
        have h1 := (Bool.and_eq_true_iff.mp hwfpost).2
        have h2 := (Bool.and_eq_true_iff.mp (Bool.and_eq_true_iff.mp hwfpost).1).2
        have h3 := (Bool.and_eq_true_iff.mp (Bool.and_eq_true_iff.mp
          (Bool.and_eq_true_iff.mp hwfpost).1).1).2
        have hne : trimL e ≠ [] := by
          intro hc
          rw [hc] at h3
          exact absurd h3 (by decide)
        have hlead0 : leadWS e = [] := by
          revert h2
          cases leadWS e <;> simp
        have hdash : startsL (trimL e) ['-'] = false := by
          revert h1
          cases startsL (trimL e) ['-'] <;> simp
        refine Or.inr ⟨e, p2, by simp, hne, ?_, hdash, ?_, ?_⟩
        · rw [hlead0]
          simp
        · exact hBpost e (by simp)
        · intro l2 hl2
          exact hBpost l2 (by simp [hl2])
    | cons j postI2 =>
      have hwj : wfInput j = true := by
        refine List.all_eq_true.mp (Bool.and_eq_true_iff.mp hwl).1 j ?_
        simp
      have hkj : rawKeyOk j.rawName = true :=
        (Bool.and_eq_true_iff.mp (Bool.and_eq_true_iff.mp hwj).1).1
      have htrj : trimL (spaces 6 ++ j.rawName ++ [':']) = j.rawName ++ [':'] :=
        trimL_spaces_append 6 (j.rawName ++ [':']) (noWsEnds_key_colon j.rawName hkj)
      have hmemj : (spaces 6 ++ j.rawName ++ [':']) ∈
          (j :: postI2).flatMap renderInput ++ dpost := by
        refine List.mem_append_left _ ?_
        refine List.mem_flatMap.mpr ⟨j, List.mem_cons_self _ _, ?_⟩
        unfold renderInput
        exact List.mem_cons_self _ _
      refine Or.inr ⟨spaces 6 ++ j.rawName ++ [':'],
        (j.attrs.flatMap renderAttr) ++ (postI2.flatMap renderInput ++ dpost),
        ?_, ?_, ?_, ?_, ?_, ?_⟩
      · simp [renderInput, List.append_assoc]
      · rw [htrj]
        simp
      · rw [hlead6, lead_name_line _ hkj]
      · rw [htrj]
        exact rawKey_colon_not_dash j.rawName hkj
      · exact hBpost _ hmemj
      · intro l2 hl2
        refine hBpost l2 ?_
        rcases List.mem_append.mp hl2 with hm | hm
        · refine List.mem_append_left _ ?_
          refine List.mem_flatMap.mpr ⟨j, List.mem_cons_self _ _, ?_⟩
          unfold renderInput
          exact List.mem_cons_of_mem _ hm
        · rcases List.mem_append.mp hm with hm2 | hm2
          · refine List.mem_append_left _ ?_
            obtain ⟨j2, hj2, hlj2⟩ := List.mem_flatMap.mp hm2
            exact List.mem_flatMap.mpr ⟨j2, List.mem_cons_of_mem _ hj2, hlj2⟩
          · exact List.mem_append_right _ hm2
  have hpostX : ((aPost.flatMap renderAttr) ++ (postI.flatMap renderInput ++ dpost)) = [] ∨
      ∃ e p2, ((aPost.flatMap renderAttr) ++ (postI.flatMap renderInput ++ dpost)) =
        e :: p2 ∧ trimL e ≠ [] ∧
        startsL (trimL e) ['-'] = false ∧
        startsL (trimL e) (r.inputName ++ [':']) = false ∧
        ((leadWS e).length ≤ (leadWS (spaces 6 ++ i.rawName ++ [':'])).length ∨
          ((leadWS e).length ≤ (leadWS (spaces 8 ++ ("options:").data)).length ∧
            trimL e ≠ ("options:").data)) := by
    cases haP : aPost with
    | nil =>
      rcases hpostR with h | ⟨e, p2, h1, h2, h3, h4, h5, -⟩
      · refine Or.inl ?_
        simp [h]
      · refine Or.inr ⟨e, p2, ?_, h2, h4, h5, Or.inl h3⟩
        simp [h1]
    | cons a2 aPost2 =>
      have ha2mem : a2 ∈ aPost := by
        rw [haP]
        exact List.mem_cons_self _ _
      have haseg : ∀ l2 ∈ renderAttr a2,
          startsL (trimL l2) (r.inputName ++ [':']) = false ∧
          trimL l2 ≠ ("options:").data ∧
          startsL (trimL l2) ['-'] = false ∧
          (trimL l2 = [] ∨
            (leadWS (spaces 6 ++ i.rawName ++ [':'])).length < (leadWS l2).length) := by
        intro l2 hl2
        refine hA2Seg l2 ?_
        exact List.mem_flatMap.mpr ⟨a2, ha2mem, hl2⟩
      cases a2 with
      | scalar k v =>
        have hamem : IAttr.scalar k v ∈ i.attrs := by
          rw [hattrs]
          exact List.mem_append_right _ (List.mem_cons_of_mem _ ha2mem)
        obtain ⟨hk, hv⟩ := Bool.and_eq_true_iff.mp
          (by simpa [wfAttr] using List.all_eq_true.mp hattrall _ hamem)
        obtain ⟨hs1, hs2, hs3, -⟩ := haseg (spaces 8 ++ k ++ ':' :: ' ' :: v)
          (by simp [renderAttr])
        refine Or.inr ⟨spaces 8 ++ k ++ ':' :: ' ' :: v,
          (aPost2.flatMap renderAttr) ++ (postI.flatMap renderInput ++ dpost),
          ?_, ?_, hs3, hs1, Or.inr ⟨?_, hs2⟩⟩
        · simp [renderAttr, List.append_assoc]
        · have htr : trimL (spaces 8 ++ k ++ ':' :: ' ' :: v) = k ++ ':' :: ' ' :: v :=
            trimL_spaces_append 8 (k ++ ':' :: ' ' :: v) (noWsEnds_kv k v hk hv)
          rw [htr]
          simp
        · rw [lead_scalar_line k v hk hv]
          have h8 : leadWS (spaces 8 ++ ("options:").data) = spaces 8 := by decide
          rw [h8]
      | nullAttr k =>
        have hamem : IAttr.nullAttr k ∈ i.attrs := by
          rw [hattrs]
          exact List.mem_append_right _ (List.mem_cons_of_mem _ ha2mem)
        have hk : plainVal k = true :=
          by simpa [wfAttr] using List.all_eq_true.mp hattrall _ hamem
        obtain ⟨hs1, hs2, hs3, -⟩ := haseg (spaces 8 ++ k ++ [':'])
          (by simp [renderAttr])
        refine Or.inr ⟨spaces 8 ++ k ++ [':'],
          (aPost2.flatMap renderAttr) ++ (postI.flatMap renderInput ++ dpost),
          ?_, ?_, hs3, hs1, Or.inr ⟨?_, hs2⟩⟩
        · simp [renderAttr, List.append_assoc]
        · have htr : trimL (spaces 8 ++ k ++ [':']) = k ++ [':'] :=
            trimL_spaces_append 8 (k ++ [':'])
              (noWsEnds_key_colon k (plainVal_rawKeyOk k hk))
          rw [htr]
          simp
        · rw [lead_null_line k (plainVal_rawKeyOk k hk)]
          have h8 : leadWS (spaces 8 ++ ("options:").data) = spaces 8 := by decide
          rw [h8]
      | opts vs =>
        exact absurd rfl (hkeysPost (IAttr.opts vs) ha2mem)
  have hmapstrip : (opts.map (fun v => spaces 10 ++ '-' :: ' ' :: v)).map
      (fun l2 => stripEndQuotes (stripDashWs (trimL l2))) = opts := by
    rw [List.map_map]
    have h2 : opts.map ((fun l2 => stripEndQuotes (stripDashWs (trimL l2))) ∘
        (fun v => spaces 10 ++ '-' :: ' ' :: v)) = opts.map id := by
      refine List.map_congr_left ?_
      intro v hv
      have hpv := hoptswf.2 v hv
      show stripEndQuotes (stripDashWs (trimL (spaces 10 ++ '-' :: ' ' :: v))) = v
      rw [trimL_spaces_append 10 ('-' :: ' ' :: v) (noWsEnds_item v hpv),
        stripDash_item v hpv, stripEndQuotes_plain v hpv]
    rw [h2, List.map_id]
  have hextract : extractOptionsWithRegex
      (renderDoc ⟨dpre, some ⟨opre, some ⟨some (preI ++ i :: postI)⟩⟩, dpost⟩)
      r.inputName = opts := by
    unfold renderDoc
    rw [hL]
    rw [extractOptions_segments2 r.inputName _ _ _ _ _ _ h0 hpre0 hpname hASeg
      hopt1 hBopt hopt3 hitemsE hpostX]
    exact hmapstrip
  have hrep : ∀ vals, replaceOptionsWithRegex
      (renderDoc ⟨dpre, some ⟨opre, some ⟨some (preI ++ i :: postI)⟩⟩, dpost⟩)
      r.inputName vals =
      renderDoc (setOptionsDoc
        ⟨dpre, some ⟨opre, some ⟨some (preI ++ i :: postI)⟩⟩, dpost⟩
        r.inputName vals) := by
    intro vals
    unfold renderDoc
    rw [hL]
    rw [replaceOptions_segments2 r.inputName vals _ _ _ _ _ _ _ h0 hpre0 hpname hASeg
      hopt1 hBopt hopt3 hitemsR hA2Seg hpostR]
    refine congrArg joinNl ?_
    have hsetdoc : setOptionsDoc
        (⟨dpre, some ⟨opre, some ⟨some (preI ++ i :: postI)⟩⟩, dpost⟩ : MDoc)
        r.inputName vals =
        ⟨dpre, some ⟨opre, some ⟨some (setInputOptions (preI ++ i :: postI)
          r.inputName vals)⟩⟩, dpost⟩ := by
      simp [setOptionsDoc]
    rw [hsetdoc]
    rw [setInputOptions_decomp postI i r.inputName vals hiname preI hppre]
    have hsetattr : setAttrOptions i.attrs vals = aPre ++ IAttr.opts vals :: aPost := by
      rw [hattrs]
      exact setAttrOptions_decomp aPre aPost opts vals hkeysPre
    rw [hsetattr]
    have hL2 := render_decomp dpre opre dpost preI postI
      ⟨i.rawName, aPre ++ IAttr.opts vals :: aPost⟩ aPre aPost vals rfl
    rw [hL2]
    have hsp8 : leadWS (spaces 8 ++ ("options:").data) = spaces 8 := by decide
    rw [hsp8]
    have hsp10 : (spaces 8 ++ ([' ', ' '] : Str)) = spaces 10 := by decide
    rw [hsp10]
  have hfall : modifyWithFallback
      (renderDoc ⟨dpre, some ⟨opre, some ⟨some (preI ++ i :: postI)⟩⟩, dpost⟩) r =
      (if (applyActionStructural r.action opts r.choiceValue r.newChoiceValue).2 then
        replaceOptionsWithRegex
          (renderDoc ⟨dpre, some ⟨opre, some ⟨some (preI ++ i :: postI)⟩⟩, dpost⟩)
          r.inputName
          (applyActionStructural r.action opts r.choiceValue r.newChoiceValue).1
      else
        renderDoc ⟨dpre, some ⟨opre, some ⟨some (preI ++ i :: postI)⟩⟩, dpost⟩) := by
    unfold modifyWithFallback
    simp only [hextract, policy_paths_agree, isEmpty_false_of_ne_nil opts hoptswf.1,
      Bool.false_eq_true, if_false]
  have hmain : modifyWorkflowContent
      (renderDoc ⟨dpre, some ⟨opre, some ⟨some (preI ++ i :: postI)⟩⟩, dpost⟩) r =
      modifyWithFallback
      (renderDoc ⟨dpre, some ⟨opre, some ⟨some (preI ++ i :: postI)⟩⟩, dpost⟩) r := by
    rw [hrun, hfall]
    cases hchange : (applyActionStructural r.action opts r.choiceValue r.newChoiceValue).2 with
    | true =>
      simp only [hchange, if_true]
      exact (hrep _).symm
    | false =>
      simp only [hchange, Bool.false_eq_true, if_false]
  exact ⟨hmain, congrArg (fun c => docOptions c r.inputName) hmain⟩

theorem structural_fallback_agreement_witness :
    modifyWorkflowContent (renderDoc (⟨[], some ⟨[], some ⟨some [⟨("env").data,
        [IAttr.opts [("dev").data],
         IAttr.scalar (("type").data) (("choice").data)]⟩]⟩⟩, []⟩ : MDoc))
      ⟨JsAction.add, ("env").data, ("x").data, none⟩ =
      modifyWithFallback (renderDoc (⟨[], some ⟨[], some ⟨some [⟨("env").data,
        [IAttr.opts [("dev").data],
         IAttr.scalar (("type").data) (("choice").data)]⟩]⟩⟩, []⟩ : MDoc))
      ⟨JsAction.add, ("env").data, ("x").data, none⟩ ∧
    docOptions (modifyWorkflowContent (renderDoc (⟨[], some ⟨[], some ⟨some [⟨("env").data,
        [IAttr.opts [("dev").data],
         IAttr.scalar (("type").data) (("choice").data)]⟩]⟩⟩, []⟩ : MDoc))
      ⟨JsAction.add, ("env").data, ("x").data, none⟩) (("env").data) =
      docOptions (modifyWithFallback (renderDoc (⟨[], some ⟨[], some ⟨some [⟨("env").data,
        [IAttr.opts [("dev").data],
         IAttr.scalar (("type").data) (("choice").data)]⟩]⟩⟩, []⟩ : MDoc))
      ⟨JsAction.add, ("env").data, ("x").data, none⟩) (("env").data) :=
  structural_fallback_agreement
    ⟨[], some ⟨[], some ⟨some [⟨("env").data,
      [IAttr.opts [("dev").data],
       IAttr.scalar (("type").data) (("choice").data)]⟩]⟩⟩, []⟩
    ⟨JsAction.add, ("env").data, ("x").data, none⟩
    [⟨("env").data, [IAttr.opts [("dev").data],
      IAttr.scalar (("type").data) (("choice").data)]⟩]
    ⟨("env").data, [IAttr.opts [("dev").data],
      IAttr.scalar (("type").data) (("choice").data)]⟩
    [("dev").data]
    (by decide) (by decide) (by decide) (by decide) (by decide) (by decide) (by decide)
